import Mathlib

/-!
# ittp: a middleware-composing wrapper around the standard request multiplexer

A shallow embedding of `ittp.go`.  A handler is a function from a request and
the observable world (the response recorder together with a log of the side
effects of handler bodies) to the new world.  The wrapper `ittp.ServeMux` is
embedded function by function from the source.  The delegate router
(`net/http`'s `ServeMux`), the request and the response recorder belong to the
host library; they are modelled in the namespace `http`.  The model of the
delegate follows the routing of `net/http`: method-qualified patterns, a GET
pattern also serving HEAD, literal and wildcard path segments, subtree
patterns, path cleaning with its redirects, the 404 and 405 fallbacks, and
registration that refuses malformed and conflicting patterns.  Requests are
those the tests of the repository build: a method, a URL path and a context.
-/

set_option autoImplicit false

namespace http

/-- The response recorder of the tests (`httptest.ResponseRecorder`): the status
code defaults to 200 and is fixed by the first header write. -/
structure ResponseRecorder where
  Code : Nat
  wroteHeader : Bool
  Body : String
  deriving DecidableEq, Repr

/-- A fresh recorder, `httptest.NewRecorder()`. -/
def NewRecorder : ResponseRecorder := ⟨200, false, ""⟩

/-- The call `w.WriteHeader(code)`: only the first call sets the status. -/
def ResponseRecorder.WriteHeader (w : ResponseRecorder) (code : Nat) : ResponseRecorder :=
  if w.wroteHeader then w else ⟨code, true, w.Body⟩

/-- The call `w.Write(b)`: an implicit `WriteHeader(200)` and then the body grows. -/
def ResponseRecorder.Write (w : ResponseRecorder) (b : String) : ResponseRecorder :=
  let w1 := w.WriteHeader 200
  ⟨w1.Code, w1.wroteHeader, w1.Body ++ b⟩

/-- Side effects of handler and middleware bodies that a test can observe. -/
inductive Event where
  | entered (i : Nat)
  | exited (i : Nat)
  | handled (tag : String)
  | matched (pattern : String)
  deriving DecidableEq, Repr

/-- What a handler acts on: the response writer and the log of side effects. -/
structure World where
  resp : ResponseRecorder
  trace : List Event
  deriving DecidableEq, Repr

/-- Append one event to the log. -/
def World.record (s : World) (e : Event) : World := ⟨s.resp, s.trace ++ [e]⟩

/-- Append a list of events to the log, in order. -/
def World.recordAll (s : World) (es : List Event) : World := ⟨s.resp, s.trace ++ es⟩

/-- Write a body chunk to the response. -/
def World.write (s : World) (b : String) : World := ⟨s.resp.Write b, s.trace⟩

/-- Write the status line of the response. -/
def World.writeHeader (s : World) (code : Nat) : World := ⟨s.resp.WriteHeader code, s.trace⟩

/-- A request: method, URL path and the values attached to its context
(most recent first). -/
structure Request where
  Method : String
  Path : String
  ctx : List (String × String)
  deriving DecidableEq, Repr

/-- The request `r.WithContext(context.WithValue(r.Context(), k, v))`. -/
def Request.WithValue (r : Request) (k v : String) : Request :=
  ⟨r.Method, r.Path, (k, v) :: r.ctx⟩

/-- The lookup `r.Context().Value(k)`: the most recently attached value wins. -/
def Request.Value (r : Request) (k : String) : Option String :=
  (r.ctx.find? (fun kv => kv.1 == k)).map Prod.snd

/-- The handler capability (`http.Handler`, `http.HandlerFunc`). -/
abbrev Handler := Request → World → World

def MethodGet : String := "GET"
def MethodHead : String := "HEAD"
def MethodPost : String := "POST"
def MethodPut : String := "PUT"
def MethodPatch : String := "PATCH"
def MethodDelete : String := "DELETE"
def MethodConnect : String := "CONNECT"
def MethodOptions : String := "OPTIONS"
def MethodTrace : String := "TRACE"

def StatusOK : Nat := 200
def StatusNotFound : Nat := 404
def StatusMethodNotAllowed : Nat := 405

/-- Modelled from the spec: net/http's redirect status, not part of this
repository. -/
def StatusMovedPermanently : Nat := 301

abbrev slash : Char := Char.ofNat 47
abbrev blank : Char := Char.ofNat 32
abbrev tab : Char := Char.ofNat 9
abbrev dot : Char := Char.ofNat 46
abbrev lbrace : Char := Char.ofNat 123
abbrev rbrace : Char := Char.ofNat 125
abbrev dollar : Char := Char.ofNat 36
abbrev percent : Char := Char.ofNat 37
abbrev underscore : Char := Char.ofNat 95

/-- Modelled from the spec: the delegate router (`net/http`'s `ServeMux`) is not
part of this repository.  It owns the pattern table, a list of
(method-qualified pattern, handler) registration records in registration
order.  The model follows the routing of `net/http` for requests as the tests
of this repository build them (a method and a URL path; no host, no separate
escaped path, no request URI), and does not model percent-escapes in
patterns. -/
structure ServeMux where
  entries : List (String × http.Handler)

/-- Modelled from the spec: the constructor of the delegate router, which is not
part of this repository; a new delegate has an empty pattern table. -/
def NewServeMux : ServeMux := ⟨[]⟩

/-- The pieces of a character sequence between its slashes. -/
def splitSlash : List Char → List (List Char)
  | [] => [[]]
  | c :: cs =>
    if c = slash then [] :: splitSlash cs
    else
      match splitSlash cs with
      | [] => [[c]]
      | p :: ps => (c :: p) :: ps

/-- The path made of the given pieces, each behind a slash. -/
def joinSlash (ps : List (List Char)) : List Char :=
  ps.foldr (fun p acc => slash :: (p ++ acc)) []

/-- One step of path cleaning: an empty piece and `.` are dropped, `..` removes
the piece before it (or nothing at the root), any other piece is kept. -/
def cleanStep (stack : List (List Char)) (piece : List Char) : List (List Char) :=
  if piece = [] ∨ piece = [dot] then stack
  else if piece = [dot, dot] then stack.dropLast
  else stack ++ [piece]

/-- Modelled from the spec: `path.Clean` of the host library on a rooted path,
not part of this repository. -/
def pathClean (p : List Char) : List Char :=
  match (splitSlash p).foldl cleanStep [] with
  | [] => [slash]
  | q :: qs => joinSlash (q :: qs)

/-- Modelled from the spec: the canonical form of a request path in the delegate
router (`cleanPath` of `net/http`, not part of this repository): rooted,
without empty, `.` or `..` elements, a trailing slash kept. -/
def cleanPath (p : List Char) : List Char :=
  if p = [] then [slash]
  else
    let p1 := if p.head? = some slash then p else slash :: p
    let np := pathClean p1
    if p1.getLast? = some slash ∧ np ≠ [slash] then np ++ [slash] else np

/-- The last piece of a path, when empty, is the trailing slash of the path. -/
def markLast : List (List Char) → List (List Char)
  | [] => []
  | [p] => if p = [] then [[slash]] else [p]
  | p :: q :: ps => p :: markLast (q :: ps)

/-- Modelled from the spec: the segments of a request path as the delegate
router walks them (`firstSegment` of `net/http`, repeated): the pieces after
the first character, a trailing slash being the segment `/`. -/
def segsOf (path : List Char) : List (List Char) :=
  if path = [] then [] else markLast (splitSlash path.tail)

/-- Modelled from the spec: a segment of a pattern of the delegate router: a
literal (the literal `/` stands for a final `{$}`), a single wildcard
`{name}`, or a multi wildcard (`{name...}`, or the nameless one of a trailing
slash). -/
inductive Segment where
  | lit (s : List Char)
  | wild (name : List Char)
  | multi (name : List Char)
  deriving DecidableEq, Repr

/-- Modelled from the spec: a parsed pattern of the delegate router: method
(empty when absent), host (empty when absent) and path segments. -/
structure Pattern where
  method : String
  host : String
  segments : List Segment
  deriving DecidableEq, Repr

/-- Modelled from the spec: the characters of an HTTP method token. -/
def isTokenChar (c : Char) : Bool :=
  c.isAlphanum || [33, 35, 36, 37, 38, 39, 42, 43, 45, 46, 94, 95, 96, 124, 126].contains c.toNat

/-- Modelled from the spec: a valid method is a non-empty token. -/
def validMethod (m : List Char) : Bool := !m.isEmpty && m.all isTokenChar

/-- Modelled from the spec: a wildcard name is an identifier (ASCII letters,
digits and underscores, not starting with a digit). -/
def isValidWildcardName : List Char → Bool
  | [] => false
  | c :: cs => (c.isAlpha || c == underscore) && cs.all (fun d => d.isAlphanum || d == underscore)

/-- The wildcard name a segment declares, if any. -/
def segmentNames : Segment → List (List Char)
  | Segment.lit _ => []
  | Segment.wild n => [n]
  | Segment.multi n => [n]

/-- Modelled from the spec: one path segment of a pattern.  A piece without an
opening brace is a literal; otherwise it must be `{name}`, `{name...}` (last
segment only) or `{$}` (last segment only), with a fresh valid name; anything
else is a malformed pattern (`none`). -/
def parseSegment (seg : List Char) (last : Bool) (seen : List (List Char)) : Option Segment :=
  if ¬ lbrace ∈ seg then some (Segment.lit seg)
  else if seg.head? ≠ some lbrace then none
  else if seg.getLast? ≠ some rbrace then none
  else
    let name := (seg.drop 1).dropLast
    if name = [dollar] then (if last then some (Segment.lit [slash]) else none)
    else
      let multi := [dot, dot, dot].isSuffixOf name
      let name := if multi then name.take (name.length - 3) else name
      if multi && !last then none
      else if !isValidWildcardName name then none
      else if name ∈ seen then none
      else some (if multi then Segment.multi name else Segment.wild name)

/-- Modelled from the spec: the path segments of a pattern, from the pieces of
its path; an empty last piece is a trailing slash, the nameless multi
wildcard. -/
def parseSegments : List (List Char) → List (List Char) → Option (List Segment)
  | [], _ => some []
  | [p], seen =>
    if p = [] then some [Segment.multi []]
    else (parseSegment p true seen).map (fun s => [s])
  | p :: q :: ps, seen =>
    match parseSegment p false seen with
    | none => none
    | some s => (parseSegments (q :: ps) (seen ++ segmentNames s)).map (fun ss => s :: ss)

/-- A space or a tab. -/
def isBlank (c : Char) : Bool := c == blank || c == tab

/-- Modelled from the spec: the pattern grammar of the delegate router
(`[METHOD ][HOST]/[PATH]`), which is not part of this repository.  The method
is what stands before the first space or tab; the host what stands before the
first slash of the rest; the path runs from that slash.  The result is `none`
for a pattern the delegate refuses: empty, with an invalid method, without a
slash, with a brace in the host, with an unclean path under a method other
than CONNECT, or with a malformed wildcard. -/
def parsePattern (s : String) : Option Pattern :=
  let cs := s.toList
  if cs = [] then none
  else
    let found := cs.any isBlank
    let method := if found then cs.takeWhile (fun c => !isBlank c) else []
    let rest :=
      if found then ((cs.dropWhile (fun c => !isBlank c)).drop 1).dropWhile isBlank else cs
    if method ≠ [] ∧ validMethod method = false then none
    else
      let host := rest.takeWhile (fun c => c != slash)
      let path := rest.dropWhile (fun c => c != slash)
      if path = [] then none
      else if lbrace ∈ host then none
      else if method ≠ [] ∧ String.mk method ≠ MethodConnect ∧ path ≠ cleanPath path then none
      else
        (parseSegments (splitSlash path.tail) []).map
          (fun segs => ⟨String.mk method, String.mk host, segs⟩)

/-- Modelled from the spec: whether the segments of a pattern match the segments
of a request path.  A literal matches the equal segment, a single wildcard any
segment but a trailing slash, a multi wildcard whatever is left, which must
not be nothing. -/
def matchSegs : List Segment → List (List Char) → Bool
  | [], [] => true
  | [], _ :: _ => false
  | Segment.multi _ :: _, ps => !ps.isEmpty
  | Segment.lit _ :: _, [] => false
  | Segment.wild _ :: _, [] => false
  | Segment.lit s :: rest, p :: ps => s == p && matchSegs rest ps
  | Segment.wild _ :: rest, p :: ps => p != [slash] && matchSegs rest ps

/-- Modelled from the spec: whether a pattern matches the path of a request
without a host: a pattern with a host never does. -/
def Pattern.matchesPath (pat : Pattern) (path : List Char) : Bool :=
  pat.host == "" && matchSegs pat.segments (segsOf path)

/-- The order in which the delegate router tries the segments at one position:
literal, single wildcard, multi wildcard. -/
def segRank : Segment → Nat
  | Segment.lit _ => 0
  | Segment.wild _ => 1
  | Segment.multi _ => 2

/-- Modelled from the spec: the precedence of the delegate router among the
patterns that match one path: the first position at which two patterns differ
in kind decides, the literal before the wildcard before the multi wildcard
(the most specific pattern wins). -/
def rankLt : List Segment → List Segment → Bool
  | a :: as, b :: bs => decide (segRank a < segRank b) || (segRank a == segRank b && rankLt as bs)
  | _, _ => false

/-- A registration record together with its parsed pattern. -/
abbrev Node := (String × http.Handler) × Pattern

/-- Modelled from the spec: the records with the given method whose pattern
matches the path. -/
def candidates (entries : List (String × http.Handler)) (method : String) (path : List Char) :
    List Node :=
  entries.filterMap (fun e =>
    match parsePattern e.1 with
    | some pat => if pat.method == method && pat.matchesPath path then some (e, pat) else none
    | none => none)

/-- Modelled from the spec: the most specific of the matching records; the
earlier one stays unless a later one comes strictly before it. -/
def pickBest : List Node → Option Node
  | [] => none
  | n :: ns =>
    match pickBest ns with
    | none => some n
    | some b => if rankLt b.2.segments n.2.segments then some b else some n

/-- Modelled from the spec: method-aware matching of the delegate router: first
the patterns with the method of the request, then, for a HEAD request, the
GET patterns, then the patterns without a method. -/
def matchMethodAndPath (entries : List (String × http.Handler)) (method : String)
    (path : List Char) : Option Node :=
  match pickBest (candidates entries method path) with
  | some n => some n
  | none =>
    match (if method == MethodHead then pickBest (candidates entries MethodGet path) else none) with
    | some n => some n
    | none => pickBest (candidates entries "" path)

/-- Whether the last segment of a pattern is a multi wildcard. -/
def lastIsMulti (segs : List Segment) : Bool :=
  match segs.getLast? with
  | some (Segment.multi _) => true
  | _ => false

/-- Modelled from the spec: whether a match is exact: the pattern has no multi
wildcard at its end, or that wildcard matched nothing but the trailing slash. -/
def exactMatch (n : Option Node) (path : List Char) : Bool :=
  match n with
  | none => false
  | some n =>
    if !lastIsMulti n.2.segments then true
    else if path.getLast? ≠ some slash then false
    else n.2.segments.length == path.count slash

/-- Modelled from the spec: the match for a path, or the redirect to the path
with a slash appended when only that one has an exact match. -/
def matchOrRedirect (entries : List (String × http.Handler)) (method : String)
    (path urlPath : List Char) : Option Node × Option (List Char) :=
  let n := matchMethodAndPath entries method path
  if !exactMatch n path && path.getLast? ≠ some slash
      && exactMatch (matchMethodAndPath entries method (path ++ [slash])) (path ++ [slash]) then
    (none, some (cleanPath urlPath ++ [slash]))
  else (n, none)

/-- Modelled from the spec: the methods of the method-qualified patterns that
match the path, or the path with a slash appended. -/
def matchingMethods (entries : List (String × http.Handler)) (path : List Char) : List String :=
  entries.filterMap (fun e =>
    match parsePattern e.1 with
    | some pat =>
      if pat.method != "" && (pat.matchesPath path
          || (path.getLast? ≠ some slash && pat.matchesPath (path ++ [slash])))
      then some pat.method else none
    | none => none)

/-- The HTML escaping of the host library. -/
def htmlEscape (s : String) : String :=
  String.join (s.toList.map (fun c =>
    if c = Char.ofNat 38 then "&amp;" else if c = Char.ofNat 60 then "&lt;"
    else if c = Char.ofNat 62 then "&gt;" else if c = Char.ofNat 34 then "&#34;"
    else if c = Char.ofNat 39 then "&#39;" else String.singleton c))

/-- Modelled from the spec: the redirect answer of the delegate router
(`http.RedirectHandler`, not part of this repository): the status, and for a
GET request a short HTML body; the `Location` header is not modelled. -/
def RedirectHandler (url : String) (code : Nat) : http.Handler :=
  fun r s =>
    let s1 := s.writeHeader code
    if r.Method = MethodGet then
      s1.write ("<a href=\"" ++ htmlEscape url ++ "\">Moved Permanently</a>.\n\n")
    else s1

/-- Modelled from the spec: the fallback handler for an unmatched path,
404 Not Found. -/
def NotFoundHandler : http.Handler :=
  fun _ s => (s.writeHeader StatusNotFound).write "404 page not found\n"

/-- Modelled from the spec: the fallback handler for a matched path with an
unmatched method, 405 Method Not Allowed (the `Allow` header is not
modelled). -/
def methodNotAllowedHandler : http.Handler :=
  fun _ s => (s.writeHeader StatusMethodNotAllowed).write "Method Not Allowed\n"

/-- Modelled from the spec: the delegate's `resolve(request) -> (handler,
matchedPattern)` on a request target.  The path of a request other than
CONNECT is cleaned first; a request whose path gains an exact match by a
trailing slash, or whose path is not clean, resolves to a redirect; an
unmatched request resolves to the 405 handler when another method would match
and to the 404 handler otherwise, with the empty pattern. -/
def ServeMux.findHandler (mux : ServeMux) (method path : String) : http.Handler × String :=
  let raw := path.toList
  let p := if method = MethodConnect then raw else cleanPath raw
  let mr := matchOrRedirect mux.entries method p raw
  match mr.2 with
  | some u => (RedirectHandler (String.mk u) StatusMovedPermanently, String.mk u)
  | none =>
    if p ≠ raw then
      (RedirectHandler (String.mk p) StatusMovedPermanently,
        match mr.1 with
        | some n => n.1.1
        | none => "")
    else
      match mr.1 with
      | some n => (n.1.2, n.1.1)
      | none =>
        if (matchingMethods mux.entries p).isEmpty then (NotFoundHandler, "")
        else (methodNotAllowedHandler, "")

/-- Modelled from the spec: `resolve(request) -> (handler, matchedPattern)` of
the delegate router (`(*http.ServeMux).Handler`). -/
def ServeMux.Handler (mux : ServeMux) (r : Request) : http.Handler × String :=
  mux.findHandler r.Method r.Path

/-- Modelled from the spec: `dispatch(request) -> response` of the delegate
router, the composite of resolve, invoke and fallback response generation. -/
def ServeMux.ServeHTTP (mux : ServeMux) : http.Handler :=
  fun r s => (mux.Handler r).1 r s

/-- Modelled from the spec: how two patterns of the delegate router relate in
what they match. -/
inductive Relationship where
  | equivalent
  | moreGeneral
  | moreSpecific
  | disjoint
  | overlaps
  deriving DecidableEq, Repr

/-- The relationship seen from the other pattern. -/
def inverseRelationship : Relationship → Relationship
  | Relationship.moreSpecific => Relationship.moreGeneral
  | Relationship.moreGeneral => Relationship.moreSpecific
  | r => r

/-- Modelled from the spec: the relationship of two patterns from the
relationships of two of their parts. -/
def combineRelationships (r1 r2 : Relationship) : Relationship :=
  match r1 with
  | Relationship.equivalent => r2
  | Relationship.disjoint => Relationship.disjoint
  | Relationship.overlaps =>
    if r2 = Relationship.disjoint then Relationship.disjoint else Relationship.overlaps
  | _ =>
    if r2 = Relationship.equivalent then r1
    else if r2 = inverseRelationship r1 then Relationship.overlaps
    else r2

/-- Modelled from the spec: the relationship of two pattern segments. -/
def compareSegments : Segment → Segment → Relationship
  | Segment.multi _, Segment.multi _ => Relationship.equivalent
  | Segment.multi _, _ => Relationship.moreGeneral
  | _, Segment.multi _ => Relationship.moreSpecific
  | Segment.wild _, Segment.wild _ => Relationship.equivalent
  | Segment.wild _, Segment.lit s =>
    if s = [slash] then Relationship.disjoint else Relationship.moreGeneral
  | Segment.lit s, Segment.wild _ =>
    if s = [slash] then Relationship.disjoint else Relationship.moreSpecific
  | Segment.lit s1, Segment.lit s2 =>
    if s1 = s2 then Relationship.equivalent else Relationship.disjoint

/-- Modelled from the spec: the relationship of two pattern paths, segment by
segment; when one path is shorter, only a multi wildcard at its end keeps the
two from being disjoint. -/
def comparePathsFrom (multi1 multi2 : Bool) :
    Relationship → List Segment → List Segment → Relationship
  | rel, [], [] => rel
  | rel, [], _ :: _ =>
    if multi1 then combineRelationships rel Relationship.moreGeneral else Relationship.disjoint
  | rel, _ :: _, [] =>
    if multi2 then combineRelationships rel Relationship.moreSpecific else Relationship.disjoint
  | rel, a :: as, b :: bs =>
    let rel1 := combineRelationships rel (compareSegments a b)
    if rel1 = Relationship.disjoint then Relationship.disjoint
    else comparePathsFrom multi1 multi2 rel1 as bs

/-- Modelled from the spec: the relationship of the paths of two patterns. -/
def Pattern.comparePaths (p1 p2 : Pattern) : Relationship :=
  if p1.segments.length ≠ p2.segments.length ∧ lastIsMulti p1.segments = false
      ∧ lastIsMulti p2.segments = false then Relationship.disjoint
  else comparePathsFrom (lastIsMulti p1.segments) (lastIsMulti p2.segments)
    Relationship.equivalent p1.segments p2.segments

/-- Modelled from the spec: the relationship of the methods of two patterns; no
method is more general than any method, GET more general than HEAD. -/
def Pattern.compareMethods (p1 p2 : Pattern) : Relationship :=
  if p1.method = p2.method then Relationship.equivalent
  else if p1.method = "" then Relationship.moreGeneral
  else if p2.method = "" then Relationship.moreSpecific
  else if p1.method = MethodGet ∧ p2.method = MethodHead then Relationship.moreGeneral
  else if p2.method = MethodGet ∧ p1.method = MethodHead then Relationship.moreSpecific
  else Relationship.disjoint

/-- Modelled from the spec: two patterns conflict when they have the same host
and match the same requests or overlap without one being more specific. -/
def Pattern.conflictsWith (p1 p2 : Pattern) : Bool :=
  if p1.host ≠ p2.host then false
  else
    let mrel := p1.compareMethods p2
    if mrel = Relationship.disjoint then false
    else
      let rel := combineRelationships mrel (p1.comparePaths p2)
      rel = Relationship.equivalent || rel = Relationship.overlaps

/-- Modelled from the spec: `register(methodOrPattern, handler)` of the delegate
router.  A malformed pattern and a pattern that conflicts with a registered
one (the same pattern twice, or an ambiguous overlap) are registration
failures (`none`, a panic in the host library); otherwise the record is
appended to the table. -/
def ServeMux.Handle (mux : ServeMux) (pattern : String) (handler : http.Handler) :
    Option ServeMux :=
  match parsePattern pattern with
  | none => none
  | some pat =>
    if mux.entries.any (fun e =>
        match parsePattern e.1 with
        | some pat2 => pat.conflictsWith pat2
        | none => false) then none
    else some ⟨mux.entries ++ [(pattern, handler)]⟩

/-- Modelled from the spec: registration of a raw request-to-response function,
the same as `Handle` on the delegate router. -/
def ServeMux.HandleFunc (mux : ServeMux) (pattern : String) (handler : http.Handler) :
    Option ServeMux :=
  mux.Handle pattern handler

/-- A plain literal path: it starts with a slash, is clean (no empty, `.` or `..`
element), has no opening brace (no wildcard) and no percent sign (escapes in
patterns are not modelled), and does not end in a slash (no subtree). -/
def literalPath (p : String) : Bool :=
  p.toList.head? == some slash && !p.toList.contains lbrace && !p.toList.contains percent
    && p.toList.getLast? != some slash && cleanPath p.toList == p.toList

/-- A string without a space or a tab. -/
def noBlank (p : String) : Bool := !p.toList.any isBlank

/-- The pieces of a path after its first character. -/
def piecesOf (p : String) : List (List Char) := splitSlash p.toList.tail

/-- What a plain literal path gives. -/
structure LiteralFacts (p : String) : Prop where
  head : p.toList.head? = some slash
  nobrace : lbrace ∉ p.toList
  last : p.toList.getLast? ≠ some slash
  clean : cleanPath p.toList = p.toList

end http


namespace ittp

open http

/-- The type `middlewareFunc func(next http.Handler) http.Handler`. -/
abbrev middlewareFunc := http.Handler → http.Handler

/-- The wrapper around the standard library mux: the delegate and the ordered
middleware sequence. -/
structure ServeMux where
  stdMux : http.ServeMux
  middlewares : List middlewareFunc

/-- The constructor `NewServeMux()`. -/
def NewServeMux : ServeMux := ⟨http.NewServeMux, []⟩

/-- The loop of `ServeHTTP`: `n` is `i + 1`, so the loop stops when `i` would
go below zero, and one step sets `h = m.middlewares[i](h)` and decrements `i`. -/
def ServeMux.ServeHTTP.loop (mws : List middlewareFunc) :
    (n : Nat) → n ≤ mws.length → http.Handler → http.Handler
  | 0, _, h => h
  | i + 1, hi, h => ServeMux.ServeHTTP.loop mws i (Nat.le_of_succ_le hi) ((mws.get ⟨i, hi⟩) h)

/-- The method `ServeHTTP`: start from the delegate, wrap it with the middleware
from the last index down to index 0, then invoke the result on the request. -/
def ServeMux.ServeHTTP (m : ServeMux) : http.Handler :=
  fun r w =>
    let h : http.Handler := m.stdMux.ServeHTTP
    let h := ServeMux.ServeHTTP.loop m.middlewares m.middlewares.length (Nat.le_refl _) h
    h r w

/-- The call `fmt.Sprintf("%s %s", method, path)`. -/
def methodPattern (method path : String) : String := method ++ " " ++ path

/-- The method `MethodHandleFunc`. -/
def ServeMux.MethodHandleFunc (m : ServeMux) (method path : String) (handler : http.Handler) :
    Option ServeMux :=
  (m.stdMux.HandleFunc (methodPattern method path) handler).map (fun d => ⟨d, m.middlewares⟩)

/-- The method `MethodHandle`. -/
def ServeMux.MethodHandle (m : ServeMux) (method path : String) (handler : http.Handler) :
    Option ServeMux :=
  (m.stdMux.Handle (methodPattern method path) handler).map (fun d => ⟨d, m.middlewares⟩)

/-- The method `HandleFunc`: pattern and handler go to the standard mux unchanged. -/
def ServeMux.HandleFunc (m : ServeMux) (pattern : String) (handler : http.Handler) : Option ServeMux :=
  (m.stdMux.HandleFunc pattern handler).map (fun d => ⟨d, m.middlewares⟩)

/-- The method `Handle`: pattern and handler go to the standard mux unchanged. -/
def ServeMux.Handle (m : ServeMux) (pattern : String) (handler : http.Handler) : Option ServeMux :=
  (m.stdMux.Handle pattern handler).map (fun d => ⟨d, m.middlewares⟩)

def ServeMux.Get (m : ServeMux) (path : String) (handler : http.Handler) : Option ServeMux :=
  m.MethodHandleFunc MethodGet path handler

def ServeMux.Head (m : ServeMux) (path : String) (handler : http.Handler) : Option ServeMux :=
  m.MethodHandleFunc MethodHead path handler

def ServeMux.Post (m : ServeMux) (path : String) (handler : http.Handler) : Option ServeMux :=
  m.MethodHandleFunc MethodPost path handler

def ServeMux.Put (m : ServeMux) (path : String) (handler : http.Handler) : Option ServeMux :=
  m.MethodHandleFunc MethodPut path handler

def ServeMux.Patch (m : ServeMux) (path : String) (handler : http.Handler) : Option ServeMux :=
  m.MethodHandleFunc MethodPatch path handler

def ServeMux.Delete (m : ServeMux) (path : String) (handler : http.Handler) : Option ServeMux :=
  m.MethodHandleFunc MethodDelete path handler

def ServeMux.Connect (m : ServeMux) (path : String) (handler : http.Handler) : Option ServeMux :=
  m.MethodHandleFunc MethodConnect path handler

def ServeMux.Options (m : ServeMux) (path : String) (handler : http.Handler) : Option ServeMux :=
  m.MethodHandleFunc MethodOptions path handler

def ServeMux.Trace (m : ServeMux) (path : String) (handler : http.Handler) : Option ServeMux :=
  m.MethodHandleFunc MethodTrace path handler

/-- The method `AddMiddleware`: append to the middleware slice. -/
def ServeMux.AddMiddleware (m : ServeMux) (middlware : middlewareFunc) : ServeMux :=
  ⟨m.stdMux, m.middlewares ++ [middlware]⟩

/-- The method `Handler`: the answer of the standard mux. -/
def ServeMux.Handler (m : ServeMux) (r : Request) : http.Handler × String :=
  m.stdMux.Handler r

/-- The composed handler in the words of the specification:
`m0(m1(...(m(n-1)(base))...))`, the first middleware outermost. -/
def onion : List middlewareFunc → http.Handler → http.Handler
  | [], base => base
  | m0 :: rest, base => m0 (onion rest base)

/-- The nine method-named registration operations with their methods, as the
test helper `getTestMux` tabulates them. -/
def methodFuncs : List (String × (ServeMux → String → http.Handler → Option ServeMux)) :=
  [(MethodGet, ServeMux.Get), (MethodHead, ServeMux.Head), (MethodPost, ServeMux.Post),
   (MethodPut, ServeMux.Put), (MethodPatch, ServeMux.Patch), (MethodDelete, ServeMux.Delete),
   (MethodConnect, ServeMux.Connect), (MethodOptions, ServeMux.Options),
   (MethodTrace, ServeMux.Trace)]

/-- A middleware that records an entry marker, calls `next` exactly once and
then records an exit marker. -/
def markerMw (i : Nat) : middlewareFunc :=
  fun next r s => (next r (s.record (Event.entered i))).record (Event.exited i)

/-- The middleware sequence `[m0, ..., m(n-1)]` of marker middleware. -/
def markers (n : Nat) : List middlewareFunc := (List.range n).map markerMw

/-- A middleware that answers by itself and never calls `next` (an auth
rejection, say). -/
def rejectMw (code : Nat) (body : String) : middlewareFunc :=
  fun _ _ s => (s.writeHeader code).write body

/-- The middleware of `TestMiddleware`: attach a value to the context of the
request, then call `next` with the new request. -/
def withValueMw (k v : String) : middlewareFunc :=
  fun next r s => next (r.WithValue k v) s

/-- A middleware that rewrites the path of the request before it calls `next`
(as `http.StripPrefix` does). -/
def rewritePathMw (path : String) : middlewareFunc :=
  fun next r s => next ⟨r.Method, path, r.ctx⟩ s

/-- The route handler of the tests: it writes the body `success`. -/
def success : http.Handler := fun _ s => s.write "success"

/-- A route handler that writes the given text. -/
def say (text : String) : http.Handler := fun _ s => s.write text

/-- A route handler that records that it ran and writes the context value it
finds under the key `k`. -/
def observe (k : String) : http.Handler :=
  fun r s => (s.record (Event.handled "route")).write ((r.Value k).getD "")

/-- A call on a router: serving a request or appending a middleware. -/
inductive Call where
  | ServeHTTP (r : Request)
  | AddMiddleware (mw : middlewareFunc)

/-- One call on the router, with the router and the world as explicit state. -/
def Call.exec : ServeMux × World → Call → ServeMux × World
  | (m, w), Call.ServeHTTP r => (m, m.ServeHTTP r w)
  | (m, w), Call.AddMiddleware mw => (m.AddMiddleware mw, w)

/-- A sequence of calls on the router, in order. -/
def execAll (st : ServeMux × World) (calls : List Call) : ServeMux × World :=
  calls.foldl Call.exec st

/-- A middleware forwards the request target when the handler it returns calls
`next` only on requests with the method and path of the request it received:
its behaviour on a request depends on `next` only through what `next` does on
requests with that same target. -/
def ForwardsTarget (mw : middlewareFunc) : Prop :=
  ∀ (next1 next2 : http.Handler) (r : Request),
    (∀ (r2 : Request) (s2 : World), r2.Method = r.Method → r2.Path = r.Path →
      next1 r2 s2 = next2 r2 s2) →
    ∀ s : World, mw next1 r s = mw next2 r s

/-- A middleware forwards the request when the handler it returns calls `next`
only on the very request it received (context included): its behaviour on a
request depends on `next` only through what `next` does on that request. -/
def ForwardsRequest (mw : middlewareFunc) : Prop :=
  ∀ (next1 next2 : http.Handler) (r : Request),
    (∀ s2 : World, next1 r s2 = next2 r s2) → ∀ s : World, mw next1 r s = mw next2 r s

/-- A stand-in for the delegate's dispatch that records the pattern the delegate
resolves for the request it is given, and does nothing else. -/
def probe (d : http.ServeMux) : http.Handler :=
  fun r s => s.record (Event.matched (d.Handler r).2)

/-- The middleware chain of the router run around the probe: the log shows the
pattern the delegate matches at the innermost step of the pipeline. -/
def matchedOnServe (m : ServeMux) : http.Handler :=
  onion m.middlewares (probe m.stdMux)

/-- A router with the routes `/a` and `/b` and one middleware that rewrites the
path of every request to `/b`. -/
def rewriteMux : ServeMux :=
  ⟨⟨[("/a", say "a"), ("/b", say "b")]⟩, [rewritePathMw "/b"]⟩

/-- A router with the routes `/a` and `/b`, a marker middleware and a
middleware that attaches a context value. -/
def plainMux : ServeMux :=
  ⟨⟨[("/a", say "a"), ("/b", say "b")]⟩, [markerMw 0, withValueMw "k" "v"]⟩

/-- A fresh world: a new recorder and an empty log. -/
def freshWorld : World := ⟨NewRecorder, []⟩

/-- The nine methods of the method-named registration operations. -/
def nineMethods : List String := methodFuncs.map Prod.fst

/-- No registered pattern of the delegate matches the path, or the path with a
slash appended, whatever the method. -/
def noRouteAt (entries : List (String × http.Handler)) (path : List Char) : Bool :=
  entries.all (fun e =>
    match parsePattern e.1 with
    | some pat => !pat.matchesPath path && !pat.matchesPath (path ++ [slash])
    | none => true)

end ittp

namespace ittp

open http

theorem splitSlash_ne_nil (cs : List Char) : splitSlash cs ≠ [] := by
  cases cs with
  | nil => simp [splitSlash]
  | cons c cs =>
    unfold splitSlash
    split
    · simp
    · split <;> simp

theorem splitSlash_no_char (a : Char) (cs : List Char) (h : a ∉ cs) :
    ∀ piece ∈ splitSlash cs, a ∉ piece := by
  induction cs with
  | nil => intro piece hp; simp [splitSlash] at hp; simp [hp]
  | cons c cs ih =>
    simp only [List.mem_cons, not_or] at h
    have ih2 := ih h.2
    intro piece hp
    unfold splitSlash at hp
    split at hp
    · simp only [List.mem_cons] at hp
      rcases hp with hp | hp
      · simp [hp]
      · exact ih2 piece hp
    · split at hp
      · simp only [List.mem_singleton] at hp
        simp only [hp, List.mem_singleton]
        exact h.1
      · rename_i p ps heq
        simp only [List.mem_cons] at hp
        rcases hp with hp | hp
        · rw [hp]
          simp only [List.mem_cons, not_or]
          exact ⟨h.1, ih2 p (by rw [heq]; exact List.mem_cons_self _ _)⟩
        · exact ih2 piece (by rw [heq]; exact List.mem_cons_of_mem _ hp)

theorem splitSlash_no_slash (cs : List Char) : ∀ piece ∈ splitSlash cs, slash ∉ piece := by
  induction cs with
  | nil => intro piece hp; simp [splitSlash] at hp; simp [hp]
  | cons c cs ih =>
    intro piece hp
    unfold splitSlash at hp
    split at hp
    · simp only [List.mem_cons] at hp
      rcases hp with hp | hp
      · simp [hp]
      · exact ih piece hp
    · rename_i hc
      split at hp
      · simp only [List.mem_singleton] at hp
        simp only [hp, List.mem_singleton]
        exact fun e => hc e.symm
      · rename_i p ps heq
        simp only [List.mem_cons] at hp
        rcases hp with hp | hp
        · rw [hp]
          simp only [List.mem_cons, not_or]
          exact ⟨fun e => hc e.symm, ih p (by rw [heq]; exact List.mem_cons_self _ _)⟩
        · exact ih piece (by rw [heq]; exact List.mem_cons_of_mem _ hp)

theorem splitSlash_last (cs : List Char) (hne : cs ≠ []) (hlast : cs.getLast? ≠ some slash) :
    (splitSlash cs).getLast? ≠ some [] := by
  induction cs with
  | nil => exact absurd rfl hne
  | cons c cs ih =>
    cases cs with
    | nil =>
      have hc : c ≠ slash := by simpa using hlast
      simp [splitSlash, hc]
    | cons d tl =>
      have ih2 := ih (by simp) (by simpa [List.getLast?_cons_cons] using hlast)
      unfold splitSlash
      split
      · have hn := splitSlash_ne_nil (d :: tl)
        cases hs : splitSlash (d :: tl) with
        | nil => exact absurd hs hn
        | cons q qs => rw [hs] at ih2; simpa [List.getLast?_cons_cons] using ih2
      · split
        · simp
        · rename_i p ps heq
          rw [heq] at ih2
          cases ps with
          | nil => simp
          | cons q qs => simpa [List.getLast?_cons_cons] using ih2

theorem splitSlash_inj (a : List Char) : ∀ b : List Char, splitSlash a = splitSlash b → a = b := by
  induction a with
  | nil =>
    intro b h
    cases b with
    | nil => rfl
    | cons d b =>
      rw [splitSlash.eq_2] at h
      have hb := splitSlash_ne_nil b
      by_cases hd : d = slash
      · simp [hd, splitSlash] at h
        exact absurd h hb
      · cases hs : splitSlash b with
        | nil => exact absurd hs hb
        | cons q qs => simp [hd, hs, splitSlash] at h
  | cons c a ih =>
    intro b h
    have ha0 := splitSlash_ne_nil a
    cases b with
    | nil =>
      rw [splitSlash.eq_2] at h
      by_cases hc : c = slash
      · simp [hc, splitSlash] at h
        exact absurd h ha0
      · cases hs : splitSlash a with
        | nil => exact absurd hs ha0
        | cons q qs => simp [hc, hs, splitSlash] at h
    | cons d b =>
      have hb0 := splitSlash_ne_nil b
      rw [splitSlash.eq_2, splitSlash.eq_2] at h
      cases ha : splitSlash a with
      | nil => exact absurd ha ha0
      | cons p ps =>
        cases hb : splitSlash b with
        | nil => exact absurd hb hb0
        | cons q qs =>
          rw [ha, hb] at h
          by_cases hc : c = slash <;> by_cases hd : d = slash
          · simp only [hc, hd, if_true, List.cons.injEq, true_and] at h
            have : splitSlash a = splitSlash b := by rw [ha, hb]; simpa using h
            rw [hc, hd, ih b this]
          · simp [hc, hd] at h
          · simp [hc, hd] at h
          · simp only [hc, hd, if_false, List.cons.injEq] at h
            obtain ⟨⟨h1, h2⟩, h3⟩ := h
            have : splitSlash a = splitSlash b := by rw [ha, hb, h2, h3]
            rw [h1, ih b this]

theorem parseSegment_lit (seg : List Char) (last : Bool) (seen : List (List Char))
    (h : lbrace ∉ seg) : parseSegment seg last seen = some (Segment.lit seg) := by
  simp [parseSegment, h]

theorem parseSegments_lits (ps : List (List Char)) :
    ∀ seen : List (List Char), (∀ piece ∈ ps, lbrace ∉ piece) → ps.getLast? ≠ some [] →
      parseSegments ps seen = some (ps.map Segment.lit) := by
  induction ps with
  | nil => intro seen _ _; rfl
  | cons p ps ih =>
    intro seen hb hl
    have hp : lbrace ∉ p := hb p (List.mem_cons_self _ _)
    cases ps with
    | nil =>
      have hne : p ≠ [] := by simpa using hl
      simp [parseSegments, hne, parseSegment_lit p true seen hp]
    | cons q qs =>
      have ih2 := ih (seen ++ segmentNames (Segment.lit p))
        (fun piece hm => hb piece (List.mem_cons_of_mem _ hm))
        (by simpa [List.getLast?_cons_cons] using hl)
      simp only [parseSegments, parseSegment_lit p false seen hp, ih2]
      rfl

theorem markLast_id (ps : List (List Char)) (hl : ps.getLast? ≠ some []) : markLast ps = ps := by
  induction ps with
  | nil => rfl
  | cons p ps ih =>
    cases ps with
    | nil =>
      have hne : p ≠ [] := by simpa using hl
      simp [markLast, hne]
    | cons q qs =>
      have ih2 := ih (by simpa [List.getLast?_cons_cons] using hl)
      simp only [markLast, ih2]

theorem markLast_eq (ps qs : List (List Char)) (hq : ∀ piece ∈ qs, slash ∉ piece)
    (h : markLast ps = qs) : ps = qs := by
  induction ps generalizing qs with
  | nil => simpa [markLast] using h
  | cons p ps ih =>
    cases ps with
    | nil =>
      by_cases hp : p = []
      · simp only [markLast, hp, if_true] at h
        have := hq [slash] (by rw [← h]; exact List.mem_singleton_self _)
        simp at this
      · simpa [markLast, hp] using h
    | cons q rest =>
      simp only [markLast] at h
      cases qs with
      | nil => simp at h
      | cons a as =>
        simp only [List.cons.injEq] at h
        have := ih as (fun piece hm => hq piece (List.mem_cons_of_mem _ hm)) h.2
        rw [h.1, this]

theorem markLast_slash (ps : List (List Char)) (hl : ps.getLast? = some []) :
    [slash] ∈ markLast ps := by
  induction ps with
  | nil => simp at hl
  | cons p ps ih =>
    cases ps with
    | nil =>
      have hp : p = [] := by simpa using hl
      simp [markLast, hp]
    | cons q qs =>
      have ih2 := ih (by simpa [List.getLast?_cons_cons] using hl)
      simp only [markLast]
      exact List.mem_cons_of_mem _ ih2

theorem splitSlash_append_slash (cs : List Char) : (splitSlash (cs ++ [slash])).getLast? = some [] := by
  induction cs with
  | nil => simp [splitSlash]
  | cons c cs ih =>
    have hn := splitSlash_ne_nil (cs ++ [slash])
    cases hs : splitSlash (cs ++ [slash]) with
    | nil => exact absurd hs hn
    | cons q qs =>
      rw [hs] at ih
      simp only [List.cons_append]
      rw [splitSlash.eq_2, hs]
      by_cases hc : c = slash
      · simp only [hc, if_true]
        simpa [List.getLast?_cons_cons] using ih
      · simp only [hc, if_false]
        cases qs with
        | nil =>
          have : q = [] := by simpa using ih
          subst this
          -- the last piece of a sequence ending in a slash is empty, so c cannot join it
          exfalso
          have h2 : splitSlash (cs ++ [slash]) ≠ [[]] := by
            clear ih hs hn
            cases cs with
            | nil => simp [splitSlash]
            | cons d ds =>
              simp only [List.cons_append]
              rw [splitSlash.eq_2]
              have hn2 := splitSlash_ne_nil (ds ++ [slash])
              by_cases hd : d = slash
              · simp [hd, hn2]
              · cases hs2 : splitSlash (ds ++ [slash]) with
                | nil => exact absurd hs2 hn2
                | cons r rs => simp [hd]
          exact h2 hs
        | cons r rs => simpa [List.getLast?_cons_cons] using ih

theorem matchSegs_lits (ps : List (List Char)) :
    ∀ segs : List (List Char), matchSegs (ps.map Segment.lit) segs = true ↔ segs = ps := by
  induction ps with
  | nil =>
    intro segs
    cases segs <;> simp [matchSegs]
  | cons p ps ih =>
    intro segs
    cases segs with
    | nil => simp [matchSegs]
    | cons s ss =>
      simp only [List.map_cons, matchSegs, Bool.and_eq_true, beq_iff_eq, ih ss, List.cons.injEq]
      constructor
      · rintro ⟨h1, h2⟩; exact ⟨h1.symm, h2⟩
      · rintro ⟨h1, h2⟩; exact ⟨h1.symm, h2⟩

theorem lastIsMulti_lits (ps : List (List Char)) : lastIsMulti (ps.map Segment.lit) = false := by
  unfold lastIsMulti
  rw [List.getLast?_map]
  cases ps.getLast? <;> rfl

theorem literalPath_facts (p : String) (h : literalPath p = true) : LiteralFacts p := by
  simp only [literalPath, Bool.and_eq_true, beq_iff_eq, Bool.not_eq_true', bne_iff_ne, ne_eq] at h
  obtain ⟨⟨⟨⟨h1, h2⟩, _⟩, h5⟩, h6⟩ := h
  exact ⟨h1, by simpa using h2, h5, h6⟩

theorem literal_shape (p : String) (h : literalPath p = true) :
    ∃ x : List Char, p.toList = slash :: x ∧ x ≠ [] ∧ x.getLast? ≠ some slash ∧ lbrace ∉ x := by
  have hf := literalPath_facts p h
  cases hp : p.toList with
  | nil => have := hf.head; rw [hp] at this; simp at this
  | cons c x =>
    have h1 := hf.head
    have h2 := hf.last
    have h3 := hf.nobrace
    rw [hp] at h1 h2 h3
    have hc : c = slash := by simpa using h1
    subst hc
    refine ⟨x, rfl, ?_, ?_, ?_⟩
    · intro hx; subst hx; simp at h2
    · intro hx
      apply h2
      cases x with
      | nil => simp at hx
      | cons d ds => simpa [List.getLast?_cons_cons] using hx
    · intro hx; exact h3 (List.mem_cons_of_mem _ hx)

theorem pieces_last (p : String) (h : literalPath p = true) : (piecesOf p).getLast? ≠ some [] := by
  obtain ⟨x, hp, hne, hl, _⟩ := literal_shape p h
  simp only [piecesOf, hp, List.tail_cons]
  exact splitSlash_last x hne hl

theorem pieces_nobrace (p : String) (h : literalPath p = true) :
    ∀ piece ∈ piecesOf p, lbrace ∉ piece := by
  obtain ⟨x, hp, _, _, hb⟩ := literal_shape p h
  simp only [piecesOf, hp, List.tail_cons]
  exact splitSlash_no_char lbrace x hb

theorem segsOf_literal (p : String) (h : literalPath p = true) : segsOf p.toList = piecesOf p := by
  obtain ⟨x, hp, _, _, _⟩ := literal_shape p h
  have := markLast_id (piecesOf p) (pieces_last p h)
  simp only [segsOf, hp, piecesOf, List.tail_cons] at this ⊢
  simpa using this

theorem segsOf_inj (p : String) (hp : literalPath p = true) (q : List Char)
    (hq : q.head? = some slash) (h : segsOf q = piecesOf p) : q = p.toList := by
  obtain ⟨x, hpx, _, _, _⟩ := literal_shape p hp
  cases q with
  | nil => simp at hq
  | cons c y =>
    have hc : c = slash := by simpa using hq
    subst hc
    simp only [segsOf, List.tail_cons, piecesOf, hpx] at h
    have h2 : markLast (splitSlash y) = splitSlash x := by simpa using h
    have h3 := markLast_eq _ _ (splitSlash_no_slash x) h2
    rw [hpx, splitSlash_inj y x h3]

theorem segsOf_append_slash (p : String) (q : List Char) :
    segsOf (q ++ [slash]) ≠ piecesOf p := by
  intro h
  have hmem : [slash] ∈ segsOf (q ++ [slash]) := by
    cases q with
    | nil => simp [segsOf, splitSlash, markLast]
    | cons c y =>
      simp only [segsOf, List.cons_append, List.tail_cons]
      have := markLast_slash _ (splitSlash_append_slash y)
      simpa using this
  rw [h] at hmem
  have := splitSlash_no_slash p.toList.tail [slash] hmem
  simp at this

theorem takeWhile_stop (f : Char → Bool) (a : List Char) (b : Char) (c : List Char)
    (ha : a.any f = false) (hb : f b = true) :
    (a ++ b :: c).takeWhile (fun x => !f x) = a
    ∧ (a ++ b :: c).dropWhile (fun x => !f x) = b :: c := by
  induction a with
  | nil => simp [List.takeWhile, List.dropWhile, hb]
  | cons x xs ih =>
    simp only [List.any_cons, Bool.or_eq_false_iff] at ha
    have := ih ha.2
    simp [List.takeWhile, List.dropWhile, ha.1, this.1, this.2]

theorem dropWhile_head (f : Char → Bool) (c : Char) (cs : List Char) (h : f c = false) :
    (c :: cs).dropWhile f = c :: cs := by
  simp [List.dropWhile, h]

theorem parsePattern_method (M p : String) (hMb : M.toList.any isBlank = false)
    (hMv : validMethod M.toList = true) (hp : literalPath p = true) :
    parsePattern (M ++ " " ++ p) = some ⟨M, "", (piecesOf p).map Segment.lit⟩ := by
  obtain ⟨x, hpx, _, _, _⟩ := literal_shape p hp
  have hf := literalPath_facts p hp
  have e : (M ++ " " ++ p).toList = M.toList ++ blank :: p.toList := by
    simp [String.toList, String.data_append]
  have hblank : isBlank blank = true := by decide
  have htd := takeWhile_stop isBlank M.toList blank p.toList hMb hblank
  have hfound : (M.toList ++ blank :: p.toList).any isBlank = true := by
    simp [hblank]
  have hsl : isBlank slash = false := by decide
  have hsegs := parseSegments_lits (piecesOf p) [] (pieces_nobrace p hp) (pieces_last p hp)
  have hclean := hf.clean
  have hMne : M.toList ≠ [] := by
    intro h0; rw [h0] at hMv; simp [validMethod] at hMv
  unfold parsePattern
  simp only [e, hfound, if_true, htd.1, htd.2, List.drop_succ_cons, List.drop_zero]
  rw [hpx] at hclean ⊢
  rw [dropWhile_head isBlank slash x hsl]
  have hhost : (slash :: x).takeWhile (fun c => c != slash) = [] := by simp [List.takeWhile]
  have hpath : (slash :: x).dropWhile (fun c => c != slash) = slash :: x := by simp [List.dropWhile]
  simp only [hhost, hpath, hclean, hMv]
  simp only [piecesOf, hpx, List.tail_cons] at hsegs
  simp [hMne, hsegs, piecesOf, hpx]
  rw [show p.data = slash :: x from hpx]
  rfl

theorem parsePattern_plain (p : String) (hp : literalPath p = true) (hblank : noBlank p = true) :
    parsePattern p = some ⟨"", "", (piecesOf p).map Segment.lit⟩ := by
  obtain ⟨x, hpx, _, _, _⟩ := literal_shape p hp
  have hsegs := parseSegments_lits (piecesOf p) [] (pieces_nobrace p hp) (pieces_last p hp)
  have hnb : p.toList.any isBlank = false := by simpa [noBlank] using hblank
  unfold parsePattern
  rw [hpx] at hnb ⊢
  have hhost : (slash :: x).takeWhile (fun c => c != slash) = [] := by simp [List.takeWhile]
  have hpath : (slash :: x).dropWhile (fun c => c != slash) = slash :: x := by simp [List.dropWhile]
  simp only [piecesOf, hpx, List.tail_cons] at hsegs
  simp [hnb, hhost, hpath, hsegs, piecesOf, hpx]
  rw [show p.data = slash :: x from hpx]
  rfl

theorem candidates_single (patstr : String) (H : http.Handler) (pat : Pattern)
    (hparse : parsePattern patstr = some pat) (m : String) (path : List Char) :
    candidates [(patstr, H)] m path
      = if pat.method = m ∧ pat.matchesPath path = true then [((patstr, H), pat)] else [] := by
  simp only [candidates, List.filterMap_cons, List.filterMap_nil, hparse]
  by_cases h1 : pat.method = m <;> by_cases h2 : pat.matchesPath path = true <;> simp [h1, h2]

theorem match_single_hit (patstr : String) (H : http.Handler) (pat : Pattern)
    (hparse : parsePattern patstr = some pat) (m : String) (path : List Char)
    (hpath : pat.matchesPath path = true)
    (hm : pat.method = m ∨ (m = MethodHead ∧ pat.method = MethodGet) ∨ pat.method = "") :
    matchMethodAndPath [(patstr, H)] m path = some ((patstr, H), pat) := by
  unfold matchMethodAndPath
  simp only [candidates_single patstr H pat hparse, hpath, and_true]
  by_cases h1 : pat.method = m
  · simp only [if_pos h1, pickBest]
  · simp only [if_neg h1, pickBest]
    rcases hm with hm | hm | hm
    · exact absurd hm h1
    · simp only [hm.1, hm.2, beq_self_eq_true, if_true, pickBest]
    · by_cases h3 : (m == MethodHead) = true
      · by_cases h4 : pat.method = MethodGet
        · simp only [h3, if_true, if_pos h4, pickBest]
        · simp only [h3, if_true, if_neg h4, pickBest, if_pos hm]
      · simp only [h3, if_pos hm, pickBest]
        simp

theorem match_single_miss (patstr : String) (H : http.Handler) (pat : Pattern)
    (hparse : parsePattern patstr = some pat) (m : String) (path : List Char)
    (h : pat.matchesPath path = false
      ∨ ¬ (pat.method = m ∨ (m = MethodHead ∧ pat.method = MethodGet) ∨ pat.method = "")) :
    matchMethodAndPath [(patstr, H)] m path = none := by
  unfold matchMethodAndPath
  simp only [candidates_single patstr H pat hparse]
  rcases h with h | h
  · simp [h, pickBest]
  · simp only [not_or, not_and] at h
    obtain ⟨h1, h2, h3⟩ := h
    simp only [h1, h3, false_and, if_false, pickBest]
    by_cases h4 : (m == MethodHead) = true
    · have h5 := h2 (by simpa using h4)
      simp [h4, h5, pickBest]
    · simp [h4]

theorem matchesPath_literal (M p : String) (path : List Char) :
    (Pattern.matchesPath ⟨M, "", (piecesOf p).map Segment.lit⟩ path = true)
      ↔ segsOf path = piecesOf p := by
  simp [Pattern.matchesPath, matchSegs_lits]

theorem exactMatch_literal (e : String × Handler) (M p : String) (path : List Char) :
    exactMatch (some (e, ⟨M, "", (piecesOf p).map Segment.lit⟩)) path = true := by
  simp [exactMatch, lastIsMulti_lits]

theorem matchingMethods_single (patstr : String) (H : http.Handler) (pat : Pattern)
    (hparse : parsePattern patstr = some pat) (path : List Char) :
    matchingMethods [(patstr, H)] path
      = if (pat.method != "" && (pat.matchesPath path
          || (decide (path.getLast? ≠ some slash) && pat.matchesPath (path ++ [slash])))) = true
        then [pat.method] else [] := by
  simp only [matchingMethods, List.filterMap_cons, List.filterMap_nil, hparse]
  by_cases hc : (pat.method != "" && (pat.matchesPath path
      || (decide (path.getLast? ≠ some slash) && pat.matchesPath (path ++ [slash])))) = true
  · simp only [hc, if_true]
  · simp only [hc, if_false]
    simp

theorem single_resolve (patstr : String) (H : http.Handler) (M p : String)
    (hp : literalPath p = true)
    (hparse : parsePattern patstr = some ⟨M, "", (piecesOf p).map Segment.lit⟩)
    (method q : String) (hq : q.toList.head? = some slash)
    (hclean : method = MethodConnect ∨ cleanPath q.toList = q.toList) :
    ServeMux.findHandler ⟨[(patstr, H)]⟩ method q
      = if q = p then
          (if M = method ∨ (method = MethodHead ∧ M = MethodGet) ∨ M = "" then (H, patstr)
           else (methodNotAllowedHandler, ""))
        else (NotFoundHandler, "") := by
  have hraw : (if method = MethodConnect then q.toList else cleanPath q.toList) = q.toList := by
    rcases hclean with h | h
    · rw [if_pos h]
    · split
      · rfl
      · exact h
  have hslash : Pattern.matchesPath ⟨M, "", (piecesOf p).map Segment.lit⟩ (q.toList ++ [slash])
      = false := by
    rw [Bool.eq_false_iff]
    intro h
    exact segsOf_append_slash p q.toList ((matchesPath_literal M p _).1 h)
  have hmatch : (Pattern.matchesPath ⟨M, "", (piecesOf p).map Segment.lit⟩ q.toList = true)
      ↔ q = p := by
    rw [matchesPath_literal]
    constructor
    · intro h
      exact String.ext (segsOf_inj p hp q.toList hq h)
    · intro h
      rw [h]
      exact segsOf_literal p hp
  have hmiss2 : matchMethodAndPath [(patstr, H)] method (q.toList ++ [slash]) = none :=
    match_single_miss patstr H _ hparse method _ (Or.inl hslash)
  by_cases hhit : q = p ∧ (M = method ∨ (method = MethodHead ∧ M = MethodGet) ∨ M = "")
  · have h1 := match_single_hit patstr H _ hparse method q.toList (hmatch.2 hhit.1) hhit.2
    have hmr : matchOrRedirect [(patstr, H)] method q.toList q.toList
        = (some ((patstr, H), ⟨M, "", (piecesOf p).map Segment.lit⟩), none) := by
      unfold matchOrRedirect
      simp only [h1, exactMatch_literal, Bool.not_true, Bool.false_and]
      rfl
    unfold ServeMux.findHandler
    simp only [hraw, hmr, ne_eq, not_true_eq_false, if_false]
    rw [if_pos hhit.1, if_pos hhit.2]
  · have h1 : matchMethodAndPath [(patstr, H)] method q.toList = none := by
      apply match_single_miss patstr H _ hparse
      by_cases hqp : q = p
      · exact Or.inr (fun hm => hhit ⟨hqp, hm⟩)
      · left
        rw [Bool.eq_false_iff]
        exact fun h => hqp (hmatch.1 h)
    have hmr : matchOrRedirect [(patstr, H)] method q.toList q.toList = (none, none) := by
      unfold matchOrRedirect
      simp only [h1, hmiss2, exactMatch, Bool.and_false]
      rfl
    unfold ServeMux.findHandler
    simp only [hraw, hmr, ne_eq, not_true_eq_false, if_false,
      matchingMethods_single patstr H _ hparse, hslash, Bool.and_false, Bool.or_false]
    by_cases hqp : q = p
    · have hmeth : ¬ (M = method ∨ (method = MethodHead ∧ M = MethodGet) ∨ M = "") :=
        fun hm => hhit ⟨hqp, hm⟩
      have hMne : M ≠ "" := fun e => hmeth (Or.inr (Or.inr e))
      rw [if_pos hqp, if_neg hmeth]
      have hmt : Pattern.matchesPath ⟨M, "", (piecesOf p).map Segment.lit⟩ q.data = true :=
        hmatch.2 hqp
      simp [hmt, hMne]
    · have hmf : Pattern.matchesPath ⟨M, "", (piecesOf p).map Segment.lit⟩ q.toList = false := by
        rw [Bool.eq_false_iff]; exact fun h => hqp (hmatch.1 h)
      rw [if_neg hqp]
      have hmf2 : Pattern.matchesPath ⟨M, "", (piecesOf p).map Segment.lit⟩ q.data = false := hmf
      simp [hmf2]

theorem onion_append (a b : List middlewareFunc) (h : http.Handler) :
    onion (a ++ b) h = onion a (onion b h) := by
  induction a with
  | nil => rfl
  | cons x xs ih => simp [onion, ih]

theorem onion_eq_foldr (mws : List middlewareFunc) (h : http.Handler) :
    onion mws h = List.foldr (fun mw k => mw k) h mws := by
  induction mws with
  | nil => rfl
  | cons x xs ih => simp [onion, ih]

theorem loop_eq_onion_take (mws : List middlewareFunc) :
    ∀ (n : Nat) (hn : n ≤ mws.length) (h : http.Handler),
      ServeMux.ServeHTTP.loop mws n hn h = onion (mws.take n) h := by
  intro n
  induction n with
  | zero => intro hn h; simp [ServeMux.ServeHTTP.loop, onion]
  | succ i ih =>
    intro hn h
    have hi : i < mws.length := hn
    rw [ServeMux.ServeHTTP.loop, ih, List.take_succ, onion_append]
    simp [List.getElem?_eq_getElem hi, onion]

theorem ServeHTTP_eq_onion (m : ServeMux) :
    m.ServeHTTP = onion m.middlewares m.stdMux.ServeHTTP := by
  funext r w
  simp [ServeMux.ServeHTTP, loop_eq_onion_take]

/-- C1: the handler that `ServeHTTP` invokes is `m0(m1(...(m(n-1)(base))...))`
for the stored sequence `[m0, ..., m(n-1)]` and the delegate `base`: the first
middleware is the outermost layer, the last one wraps `base` directly, and
without middleware the handler is `base` itself. -/
theorem C1_ServeHTTP_composes_first_outermost (base : http.ServeMux) (mws : List middlewareFunc)
    (r : Request) (w : World) :
    ServeMux.ServeHTTP ⟨base, mws⟩ r w = onion mws base.ServeHTTP r w
    ∧ ServeMux.ServeHTTP ⟨base, []⟩ r w = base.ServeHTTP r w
    ∧ (∀ (m0 : middlewareFunc) (rest : List middlewareFunc),
        ServeMux.ServeHTTP ⟨base, m0 :: rest⟩ r w = m0 (onion rest base.ServeHTTP) r w)
    ∧ (∀ (init : List middlewareFunc) (last : middlewareFunc),
        ServeMux.ServeHTTP ⟨base, init ++ [last]⟩ r w = onion init (last base.ServeHTTP) r w)
    ∧ ServeMux.ServeHTTP ⟨base, mws⟩ r w = List.foldr (fun mw h => mw h) base.ServeHTTP mws r w := by
  refine ⟨?_, ?_, ?_, ?_, ?_⟩
  · rw [ServeHTTP_eq_onion]
  · rw [ServeHTTP_eq_onion]; rfl
  · intro m0 rest; rw [ServeHTTP_eq_onion]; rfl
  · intro init last; rw [ServeHTTP_eq_onion]; simp [onion_append, onion]
  · rw [ServeHTTP_eq_onion, onion_eq_foldr]

theorem recordAll_recordAll (s : World) (a b : List Event) :
    (s.recordAll a).recordAll b = s.recordAll (a ++ b) := by
  simp [World.recordAll]

theorem record_eq_recordAll (s : World) (e : Event) : s.record e = s.recordAll [e] := rfl

theorem recordAll_resp (s : World) (es : List Event) : (s.recordAll es).resp = s.resp := rfl

theorem onion_markerMw (ids : List Nat) (h : http.Handler) (r : Request) :
    ∀ s : World, onion (ids.map markerMw) h r s
      = (h r (s.recordAll (ids.map Event.entered))).recordAll (ids.reverse.map Event.exited) := by
  induction ids with
  | nil => intro s; simp [onion, World.recordAll]
  | cons i rest ih =>
    intro s
    simp only [List.map_cons, onion, List.reverse_cons, List.map_append, List.map_nil]
    show ((onion (rest.map markerMw) h) r (s.record (Event.entered i))).record (Event.exited i) = _
    rw [ih, record_eq_recordAll, record_eq_recordAll, recordAll_recordAll, recordAll_recordAll]
    rfl

/-- C2: with marker middleware `[m0, ..., m(n-1)]` one request through
`ServeHTTP` records `entered 0, ..., entered (n-1)`, then the delegate
dispatches, then `exited (n-1), ..., exited 0` is recorded: the world after the
request is the delegate's result on the world with all entry markers, followed
by the exit markers in reverse; so whatever trace `t` the dispatch appends, the
final trace is the entries, `t`, the exits. -/
theorem C2_marker_trace_entries_then_exits_reversed (base : http.ServeMux) (n : Nat)
    (r : Request) (s : World) :
    ServeMux.ServeHTTP ⟨base, markers n⟩ r s
      = (base.ServeHTTP r (s.recordAll ((List.range n).map Event.entered))).recordAll
          ((List.range n).reverse.map Event.exited)
    ∧ (∀ t : List Event,
        (base.ServeHTTP r (s.recordAll ((List.range n).map Event.entered))).trace
            = s.trace ++ (List.range n).map Event.entered ++ t →
        (ServeMux.ServeHTTP ⟨base, markers n⟩ r s).trace
            = s.trace ++ (List.range n).map Event.entered ++ t
                ++ (List.range n).reverse.map Event.exited) := by
  have key := onion_markerMw (List.range n) base.ServeHTTP r s
  constructor
  · rw [ServeHTTP_eq_onion]; exact key
  · intro t ht
    rw [ServeHTTP_eq_onion]
    show (onion ((List.range n).map markerMw) base.ServeHTTP r s).trace = _
    rw [key]
    show (base.ServeHTTP r (s.recordAll ((List.range n).map Event.entered))).trace ++ _ = _
    rw [ht]

/-- C3: each of the nine method-named operations, called with `(p, h)`, gives
the same router as `HandleFunc(M ++ " " ++ p, h)`; when the registration goes
through, the delegate's table has gained exactly the record of the pattern
`M`, one space, `p`, with the handler `h`, and the middleware sequence is the
same as before. -/
theorem C3_method_funcs_are_HandleFunc (op : String × (ServeMux → String → http.Handler → Option ServeMux))
    (hop : op ∈ methodFuncs) (m : ServeMux) (p : String) (h : http.Handler) :
    op.2 m p h = m.HandleFunc (op.1 ++ " " ++ p) h
    ∧ (∀ m2 : ServeMux, op.2 m p h = some m2 →
        m2.stdMux.entries = m.stdMux.entries ++ [(op.1 ++ " " ++ p, h)]
        ∧ m2.middlewares = m.middlewares)
    ∧ methodFuncs.map Prod.fst
        = ["GET", "HEAD", "POST", "PUT", "PATCH", "DELETE", "CONNECT", "OPTIONS", "TRACE"] := by
  have hreg : ∀ (M : String) (m2 : ServeMux), m.HandleFunc (M ++ " " ++ p) h = some m2 →
      m2.stdMux.entries = m.stdMux.entries ++ [(M ++ " " ++ p, h)]
        ∧ m2.middlewares = m.middlewares := by
    intro M m2 h2
    simp only [ServeMux.HandleFunc, http.ServeMux.HandleFunc, http.ServeMux.Handle] at h2
    split at h2
    · simp at h2
    · split at h2
      · simp at h2
      · simp only [Option.map_some', Option.some.injEq] at h2
        subst h2
        exact ⟨rfl, rfl⟩
  have hall : op.2 m p h = m.HandleFunc (op.1 ++ " " ++ p) h := by
    simp only [methodFuncs, List.mem_cons, List.mem_singleton, List.not_mem_nil, or_false] at hop
    rcases hop with h1 | h1 | h1 | h1 | h1 | h1 | h1 | h1 | h1 <;> subst h1 <;> rfl
  refine ⟨hall, ?_, rfl⟩
  intro m2 h2
  rw [hall] at h2
  exact hreg _ m2 h2

/-- A concrete run: `Post` on a fresh router is `HandleFunc` with `POST /x`. -/
theorem C3_witness :
    ((MethodPost, ServeMux.Post) ∈ methodFuncs)
    ∧ (ServeMux.Post NewServeMux "/x" success = NewServeMux.HandleFunc ("POST" ++ " " ++ "/x") success) := by
  have hmem : ((MethodPost, ServeMux.Post) ∈ methodFuncs) := by simp [methodFuncs]
  exact ⟨hmem, (C3_method_funcs_are_HandleFunc (MethodPost, ServeMux.Post) hmem NewServeMux "/x" success).1⟩

theorem findHandler_empty (method path : String) :
    (http.ServeMux.findHandler ⟨[]⟩ method path).2 = "" := by
  have h0 : ∀ (m : String) (q : List Char), matchMethodAndPath [] m q = none := by
    intro m q
    unfold matchMethodAndPath
    simp [candidates, pickBest]
  have hmr : ∀ (m : String) (q u : List Char), matchOrRedirect [] m q u = (none, none) := by
    intro m q u
    unfold matchOrRedirect
    simp [h0, exactMatch]
  unfold http.ServeMux.findHandler
  simp only [hmr, matchingMethods, List.filterMap_nil]
  split <;> split <;> rfl

/-- C5: `Handler(r)` is the pair that the delegate's own resolve returns for `r`
and no middleware takes part: routers over the same delegate give the same
answer whatever their middleware sequences, appending a middleware leaves the
answer as it was, and a router without registrations answers as a fresh
standard mux does, with the empty pattern. -/
theorem C5_Handler_is_delegate_resolve (m : ServeMux) (r : Request) :
    m.Handler r = m.stdMux.Handler r
    ∧ (∀ (d : http.ServeMux) (mws1 mws2 : List middlewareFunc),
        ServeMux.Handler ⟨d, mws1⟩ r = ServeMux.Handler ⟨d, mws2⟩ r)
    ∧ (∀ mw : middlewareFunc, (m.AddMiddleware mw).Handler r = m.Handler r)
    ∧ NewServeMux.Handler r = http.NewServeMux.Handler r
    ∧ (NewServeMux.Handler r).2 = "" := by
  refine ⟨rfl, fun _ _ _ => rfl, fun _ => rfl, rfl, ?_⟩
  exact findHandler_empty r.Method r.Path

/-- C7: `AddMiddleware(mw)` is total and yields the router with the sequence
`ms ++ [mw]` over the same delegate; serving does not change the router, so
after any requests served with `ms` and then `AddMiddleware(mw)`, the next
`ServeHTTP` runs the chain of `ms ++ [mw]`, with `mw` the new innermost layer
around the delegate. -/
theorem C7_AddMiddleware_appends_and_next_request_sees_it (m : ServeMux) (mw : middlewareFunc) :
    (m.AddMiddleware mw).middlewares = m.middlewares ++ [mw]
    ∧ (m.AddMiddleware mw).stdMux = m.stdMux
    ∧ (∀ (r : Request) (w : World),
        (m.AddMiddleware mw).ServeHTTP r w = onion (m.middlewares ++ [mw]) m.stdMux.ServeHTTP r w
        ∧ (m.AddMiddleware mw).ServeHTTP r w = onion m.middlewares (mw m.stdMux.ServeHTTP) r w)
    ∧ (∀ (earlier : List Request) (r2 : Request) (w : World),
        (execAll (m, w) (earlier.map Call.ServeHTTP ++ [Call.AddMiddleware mw, Call.ServeHTTP r2])).2
          = onion m.middlewares (mw m.stdMux.ServeHTTP) r2
              (execAll (m, w) (earlier.map Call.ServeHTTP)).2
        ∧ (execAll (m, w) (earlier.map Call.ServeHTTP)).1.middlewares = m.middlewares) := by
  have hserve : ∀ (r : Request) (w : World),
      (m.AddMiddleware mw).ServeHTTP r w = onion m.middlewares (mw m.stdMux.ServeHTTP) r w := by
    intro r w
    rw [ServeHTTP_eq_onion]
    simp [ServeMux.AddMiddleware, onion_append, onion]
  have hkeep : ∀ (earlier : List Request) (w : World),
      (execAll (m, w) (earlier.map Call.ServeHTTP)).1 = m := by
    intro earlier
    induction earlier with
    | nil => intro w; rfl
    | cons r rs ih =>
      intro w
      simpa [execAll, Call.exec] using ih (m.ServeHTTP r w)
  refine ⟨rfl, rfl, ?_, ?_⟩
  · intro r w
    refine ⟨?_, hserve r w⟩
    rw [ServeHTTP_eq_onion]; rfl
  · intro earlier r2 w
    refine ⟨?_, by rw [hkeep]⟩
    have h1 := hkeep earlier w
    rw [execAll, List.foldl_append]
    show (Call.exec (Call.exec (execAll (m, w) (earlier.map Call.ServeHTTP))
      (Call.AddMiddleware mw)) (Call.ServeHTTP r2)).2 = _
    generalize execAll (m, w) (earlier.map Call.ServeHTTP) = st at h1 ⊢
    obtain ⟨m1, w1⟩ := st
    simp only at h1
    subst h1
    exact hserve r2 w1

/-- C8: when a middleware `mk` of the sequence never calls its `next` (the
handler it returns is the same for every `next`), `ServeHTTP` returns the
response of `mk` as seen through the middleware before it, and neither the
middleware after `mk` nor the delegate take part: the result is the same for
every later middleware sequence and every delegate. -/
theorem C8_short_circuit_stops_the_chain (before after : List middlewareFunc) (mk : middlewareFunc)
    (hmk : ∀ next1 next2 : http.Handler, mk next1 = mk next2)
    (base : http.ServeMux) (r : Request) (w : World) :
    (∀ next : http.Handler,
        ServeMux.ServeHTTP ⟨base, before ++ mk :: after⟩ r w = onion before (mk next) r w)
    ∧ (∀ (after2 : List middlewareFunc) (base2 : http.ServeMux),
        ServeMux.ServeHTTP ⟨base, before ++ mk :: after⟩ r w
          = ServeMux.ServeHTTP ⟨base2, before ++ mk :: after2⟩ r w) := by
  have h1 : ∀ (aft : List middlewareFunc) (b : http.ServeMux) (next : http.Handler),
      ServeMux.ServeHTTP ⟨b, before ++ mk :: aft⟩ r w = onion before (mk next) r w := by
    intro aft b next
    rw [ServeHTTP_eq_onion]
    simp only [onion_append, onion]
    rw [hmk (onion aft b.ServeHTTP) next]
  refine ⟨fun next => h1 after base next, ?_⟩
  intro after2 base2
  rw [h1 after base NotFoundHandler, h1 after2 base2 NotFoundHandler]

/-- A concrete run of a short circuit: two markers, a rejecting middleware, three
more markers; only the first two markers and the rejection are seen. -/
theorem C8_witness :
    (∀ next1 next2 : http.Handler, rejectMw 401 "denied" next1 = rejectMw 401 "denied" next2)
    ∧ ServeMux.ServeHTTP ⟨⟨[("GET /x", success)]⟩, markers 2 ++ rejectMw 401 "denied" :: markers 3⟩
        ⟨"GET", "/x", []⟩ freshWorld
      = ⟨⟨401, true, "denied"⟩,
          [Event.entered 0, Event.entered 1, Event.exited 1, Event.exited 0]⟩ := by
  refine ⟨fun _ _ => rfl, ?_⟩
  rw [(C8_short_circuit_stops_the_chain (markers 2) (markers 3) (rejectMw 401 "denied")
    (fun _ _ => rfl) ⟨[("GET /x", success)]⟩ ⟨"GET", "/x", []⟩ freshWorld).1 NotFoundHandler]
  decide

theorem onion_congr_target (mws : List middlewareFunc)
    (hall : ∀ mw ∈ mws, ForwardsTarget mw) (n1 n2 : http.Handler) (r : Request)
    (hag : ∀ (r2 : Request) (s2 : World), r2.Method = r.Method → r2.Path = r.Path →
      n1 r2 s2 = n2 r2 s2) :
    ∀ (r2 : Request) (s2 : World), r2.Method = r.Method → r2.Path = r.Path →
      onion mws n1 r2 s2 = onion mws n2 r2 s2 := by
  induction mws with
  | nil => intro r2 s2 hm hp; exact hag r2 s2 hm hp
  | cons mw rest ih =>
    intro r2 s2 hm hp
    have hrest : ∀ mw2 ∈ rest, ForwardsTarget mw2 :=
      fun mw2 h2 => hall mw2 (List.mem_cons_of_mem _ h2)
    have hmw : ForwardsTarget mw := hall mw (List.mem_cons_self _ _)
    show mw (onion rest n1) r2 s2 = mw (onion rest n2) r2 s2
    apply hmw
    intro r3 s3 hm3 hp3
    exact ih hrest r3 s3 (hm3.trans hm) (hp3.trans hp)

theorem markerMw_forwards (i : Nat) : ForwardsTarget (markerMw i) := by
  intro n1 n2 r hag s
  show (n1 r _).record _ = (n2 r _).record _
  rw [hag r _ rfl rfl]

theorem withValueMw_forwards (k v : String) : ForwardsTarget (withValueMw k v) := by
  intro n1 n2 r hag s
  exact hag (r.WithValue k v) s rfl rfl

theorem Handler_target (d : http.ServeMux) (r r2 : Request)
    (hm : r2.Method = r.Method) (hp : r2.Path = r.Path) : d.Handler r2 = d.Handler r := by
  simp [http.ServeMux.Handler, hm, hp]

/-- C6, as amended: for a router whose middleware call `next` only on requests
with the method and path they received, the pair that `Handler(r)` returns is
the pair the delegate resolves at the innermost step when `r` is served in
full: serving `r` is the middleware chain around the handler `Handler(r)`
returned, the pattern matched at the innermost step is the pattern `Handler(r)`
returned, and every request with the target of `r` resolves to that pair. -/
theorem C6_Handler_agrees_with_serve_for_forwarding_middleware (m : ServeMux)
    (hfw : ∀ mw ∈ m.middlewares, ForwardsTarget mw) (r : Request) (s : World) :
    m.ServeHTTP r s = onion m.middlewares (fun r2 s2 => (m.Handler r).1 r2 s2) r s
    ∧ matchedOnServe m r s
        = onion m.middlewares (fun _ s2 => s2.record (Event.matched (m.Handler r).2)) r s
    ∧ (∀ r2 : Request, r2.Method = r.Method → r2.Path = r.Path →
        m.stdMux.Handler r2 = m.Handler r) := by
  refine ⟨?_, ?_, ?_⟩
  · rw [ServeHTTP_eq_onion]
    apply onion_congr_target m.middlewares hfw _ _ r _ r s rfl rfl
    intro r2 s2 hm hp
    show (m.stdMux.Handler r2).1 r2 s2 = (m.stdMux.Handler r).1 r2 s2
    rw [Handler_target m.stdMux r r2 hm hp]
  · apply onion_congr_target m.middlewares hfw _ _ r _ r s rfl rfl
    intro r2 s2 hm hp
    show s2.record (Event.matched (m.stdMux.Handler r2).2) = _
    rw [Handler_target m.stdMux r r2 hm hp]
    rfl
  · intro r2 hm hp
    exact Handler_target m.stdMux r r2 hm hp

/-- A concrete run with a marker and a context middleware: the pattern matched
on the full serve is the one `Handler` answers. -/
theorem C6_witness :
    (∀ mw ∈ plainMux.middlewares, ForwardsTarget mw)
    ∧ (plainMux.Handler ⟨"GET", "/a", []⟩).2 = "/a"
    ∧ matchedOnServe plainMux ⟨"GET", "/a", []⟩ freshWorld
        = ⟨NewRecorder, [Event.entered 0, Event.matched "/a", Event.exited 0]⟩ := by
  have hfw : ∀ mw ∈ plainMux.middlewares, ForwardsTarget mw := by
    intro mw hmw
    simp only [plainMux, List.mem_cons, List.mem_singleton, List.not_mem_nil, or_false] at hmw
    rcases hmw with h | h
    · rw [h]; exact markerMw_forwards 0
    · rw [h]; exact withValueMw_forwards "k" "v"
  refine ⟨hfw, by decide, ?_⟩
  rw [(C6_Handler_agrees_with_serve_for_forwarding_middleware plainMux hfw
    ⟨"GET", "/a", []⟩ freshWorld).2.1]
  decide

/-- C6, the claim as stated fails: with a middleware that rewrites the path to
`/b`, `Handler` answers the pattern `/a` for the request `GET /a`, while the
full serve of that request matches `/b` at the innermost step and runs the
handler of `/b`. -/
theorem C6_counterexample_path_rewriting_middleware :
    (rewriteMux.Handler ⟨"GET", "/a", []⟩).2 = "/a"
    ∧ (matchedOnServe rewriteMux ⟨"GET", "/a", []⟩ freshWorld).trace = [Event.matched "/b"]
    ∧ (rewriteMux.ServeHTTP ⟨"GET", "/a", []⟩ freshWorld).resp.Body = "b"
    ∧ ((rewriteMux.Handler ⟨"GET", "/a", []⟩).1 ⟨"GET", "/a", []⟩ freshWorld).resp.Body = "a" := by
  refine ⟨by decide, by decide, by decide, by decide⟩

theorem onion_congr_request (mws : List middlewareFunc)
    (hall : ∀ mw ∈ mws, ForwardsRequest mw) (n1 n2 : http.Handler) (r : Request)
    (hag : ∀ s2 : World, n1 r s2 = n2 r s2) :
    ∀ s : World, onion mws n1 r s = onion mws n2 r s := by
  induction mws with
  | nil => exact hag
  | cons mw rest ih =>
    intro s
    have hrest : ∀ mw2 ∈ rest, ForwardsRequest mw2 :=
      fun mw2 h2 => hall mw2 (List.mem_cons_of_mem _ h2)
    show mw (onion rest n1) r s = mw (onion rest n2) r s
    exact hall mw (List.mem_cons_self _ _) _ _ r (ih hrest) s

theorem markerMw_forwards_request (i : Nat) : ForwardsRequest (markerMw i) := by
  intro n1 n2 r hag s
  show (n1 r _).record _ = (n2 r _).record _
  rw [hag]

theorem withValue_serve (d : http.ServeMux) (k v : String) (r : Request) (s : World) :
    ServeMux.ServeHTTP ⟨d, [withValueMw k v]⟩ r s = (d.Handler r).1 (r.WithValue k v) s := rfl

theorem ServeHTTP_nil (d : http.ServeMux) (r : Request) (w : World) :
    ServeMux.ServeHTTP ⟨d, []⟩ r w = (d.findHandler r.Method r.Path).1 r w := rfl

theorem slash_append_ne (x y : String) (h : y ≠ x) : "/" ++ y ≠ "/" ++ x := by
  intro e
  apply h
  have e2 : ("/" ++ y).data = ("/" ++ x).data := by rw [e]
  simp only [String.data_append, List.append_cancel_left_eq] at e2
  exact String.ext e2

theorem slash_append_head (y : String) : ("/" ++ y).toList.head? = some slash := by
  simp [String.toList, String.data_append]

theorem literal_head (p : String) (hp : literalPath p = true) : p.toList.head? = some slash :=
  (literalPath_facts p hp).head

theorem literal_clean (p : String) (hp : literalPath p = true) (method : String) :
    method = MethodConnect ∨ cleanPath p.toList = p.toList :=
  Or.inr (literalPath_facts p hp).clean

theorem nine_facts (M : String) (hM : M ∈ nineMethods) :
    M.toList.any isBlank = false ∧ validMethod M.toList = true ∧ M ≠ "" := by
  simp only [nineMethods, methodFuncs, List.map_cons, List.map_nil, List.mem_cons,
    List.mem_singleton, List.not_mem_nil, or_false] at hM
  rcases hM with h | h | h | h | h | h | h | h | h <;> subst h <;> decide

theorem methodFuncs_spec (op : String × (ServeMux → String → http.Handler → Option ServeMux))
    (hop : op ∈ methodFuncs) :
    op.1 ∈ nineMethods
    ∧ ∀ (m : ServeMux) (p : String) (h : http.Handler), op.2 m p h = m.MethodHandleFunc op.1 p h := by
  refine ⟨List.mem_map_of_mem Prod.fst hop, ?_⟩
  simp only [methodFuncs, List.mem_cons, List.mem_singleton, List.not_mem_nil, or_false] at hop
  rcases hop with h | h | h | h | h | h | h | h | h <;> subst h <;> intro m p h <;> rfl

theorem Handle_fresh (pattern : String) (h : http.Handler)
    (hparse : (parsePattern pattern).isSome = true) :
    http.ServeMux.Handle ⟨[]⟩ pattern h = some ⟨[(pattern, h)]⟩ := by
  unfold http.ServeMux.Handle
  cases hp : parsePattern pattern with
  | none => rw [hp] at hparse; simp at hparse
  | some pat => simp

theorem MethodHandleFunc_fresh (A : List middlewareFunc) (M p : String) (h : http.Handler)
    (hparse : (parsePattern (M ++ " " ++ p)).isSome = true) :
    ServeMux.MethodHandleFunc ⟨http.NewServeMux, A⟩ M p h = some ⟨⟨[(M ++ " " ++ p, h)]⟩, A⟩ := by
  show (http.ServeMux.Handle ⟨[]⟩ (M ++ " " ++ p) h).map _ = _
  rw [Handle_fresh _ h hparse]
  rfl

theorem HandleFunc_fresh (A : List middlewareFunc) (p : String) (h : http.Handler)
    (hparse : (parsePattern p).isSome = true) :
    ServeMux.HandleFunc ⟨http.NewServeMux, A⟩ p h = some ⟨⟨[(p, h)]⟩, A⟩
    ∧ ServeMux.Handle ⟨http.NewServeMux, A⟩ p h = some ⟨⟨[(p, h)]⟩, A⟩ := by
  constructor
  · show (http.ServeMux.Handle ⟨[]⟩ p h).map _ = _
    rw [Handle_fresh _ h hparse]
    rfl
  · show (http.ServeMux.Handle ⟨[]⟩ p h).map _ = _
    rw [Handle_fresh _ h hparse]
    rfl

theorem method_route_resolve (M p : String) (H : http.Handler) (hM : M ∈ nineMethods)
    (hp : literalPath p = true) (method q : String) (hq : q.toList.head? = some slash)
    (hclean : method = MethodConnect ∨ cleanPath q.toList = q.toList) :
    http.ServeMux.findHandler ⟨[(M ++ " " ++ p, H)]⟩ method q
      = if q = p then
          (if M = method ∨ (method = MethodHead ∧ M = MethodGet) then (H, M ++ " " ++ p)
           else (methodNotAllowedHandler, ""))
        else (NotFoundHandler, "") := by
  obtain ⟨hb, hv, hne⟩ := nine_facts M hM
  rw [single_resolve (M ++ " " ++ p) H M p hp (parsePattern_method M p hb hv hp) method q hq hclean]
  simp [hne]

theorem plain_route_resolve (p : String) (H : http.Handler)
    (hp : literalPath p = true) (hblank : noBlank p = true) (method q : String) (hq : q.toList.head? = some slash)
    (hclean : method = MethodConnect ∨ cleanPath q.toList = q.toList) :
    http.ServeMux.findHandler ⟨[(p, H)]⟩ method q
      = if q = p then (H, p) else (NotFoundHandler, "") := by
  rw [single_resolve p H "" p hp (parsePattern_plain p hp hblank) method q hq hclean]
  simp

theorem notAllowed_code (r : Request) (s : World) (hs : s.resp = NewRecorder) :
    (methodNotAllowedHandler r s).resp.Code = StatusMethodNotAllowed := by
  show (((s.writeHeader StatusMethodNotAllowed).write _).resp).Code = _
  simp only [World.write, World.writeHeader, hs]
  rfl

theorem notFound_code (r : Request) (s : World) (hs : s.resp = NewRecorder) :
    (NotFoundHandler r s).resp.Code = StatusNotFound := by
  show (((s.writeHeader StatusNotFound).write _).resp).Code = _
  simp only [World.write, World.writeHeader, hs]
  rfl

/-- C4, as amended: a handler `H` registered on a fresh router at method `M` and
path `/x` by any of the nine method-named operations (the same router as
`MethodHandleFunc(M, "/x", H)` gives), with no other routes, where `/x` is a
plain literal path (clean, without an opening brace or a percent sign, not
ending in a slash): a request with method `M` and path `/x` gets the
response of `H`, and so does a HEAD request when `M` is GET; a request with
any other method and path `/x` gets status 405 on a fresh recorder; and a
request with a clean path `/y`, `y` different from `x`, gets 404. -/
theorem C4_single_route_200_405_404
    (op : String × (ServeMux → String → http.Handler → Option ServeMux))
    (hop : op ∈ methodFuncs) (x : String) (H : http.Handler)
    (hx : literalPath ("/" ++ x) = true) :
    ∃ m : ServeMux, op.2 NewServeMux ("/" ++ x) H = some m
      ∧ NewServeMux.MethodHandleFunc op.1 ("/" ++ x) H = some m
      ∧ (∀ (r : Request) (w : World), r.Method = op.1 → r.Path = "/" ++ x →
          m.ServeHTTP r w = H r w)
      ∧ (∀ (r : Request) (w : World), op.1 = MethodGet → r.Method = MethodHead →
          r.Path = "/" ++ x → m.ServeHTTP r w = H r w)
      ∧ (∀ (r : Request) (t : List Event), r.Method ≠ op.1 →
          ¬ (op.1 = MethodGet ∧ r.Method = MethodHead) → r.Path = "/" ++ x →
          (m.ServeHTTP r ⟨NewRecorder, t⟩).resp.Code = StatusMethodNotAllowed)
      ∧ (∀ (r : Request) (t : List Event) (y : String), y ≠ x → r.Path = "/" ++ y →
          (r.Method = MethodConnect ∨ cleanPath r.Path.toList = r.Path.toList) →
          (m.ServeHTTP r ⟨NewRecorder, t⟩).resp.Code = StatusNotFound) := by
  obtain ⟨hM, hreg⟩ := methodFuncs_spec op hop
  obtain ⟨hb, hv, hne⟩ := nine_facts op.1 hM
  have hparse := parsePattern_method op.1 ("/" ++ x) hb hv hx
  have hfresh := MethodHandleFunc_fresh [] op.1 ("/" ++ x) H (by rw [hparse]; rfl)
  have hres := method_route_resolve op.1 ("/" ++ x) H hM hx
  refine ⟨⟨⟨[(op.1 ++ " " ++ ("/" ++ x), H)]⟩, []⟩, ?_, hfresh, ?_, ?_, ?_, ?_⟩
  · rw [hreg]; exact hfresh
  · intro r w hm hpath
    rw [ServeHTTP_nil, hpath, hres r.Method ("/" ++ x) (literal_head _ hx) (literal_clean _ hx _),
      if_pos rfl, if_pos (Or.inl hm.symm)]
  · intro r w hget hhead hpath
    rw [ServeHTTP_nil, hpath, hres r.Method ("/" ++ x) (literal_head _ hx) (literal_clean _ hx _),
      if_pos rfl, if_pos (Or.inr ⟨hhead, hget⟩)]
  · intro r t hm hnh hpath
    have hno : ¬ (op.1 = r.Method ∨ (r.Method = MethodHead ∧ op.1 = MethodGet)) := by
      rintro (h | ⟨h1, h2⟩)
      · exact hm h.symm
      · exact hnh ⟨h2, h1⟩
    rw [ServeHTTP_nil, hpath, hres r.Method ("/" ++ x) (literal_head _ hx) (literal_clean _ hx _),
      if_pos rfl, if_neg hno]
    exact notAllowed_code r _ rfl
  · intro r t y hy hpath hclean
    rw [hpath] at hclean
    rw [ServeHTTP_nil, hpath, hres r.Method ("/" ++ y) (slash_append_head y) hclean,
      if_neg (slash_append_ne x y hy)]
    exact notFound_code r _ rfl

/-- A concrete run of the single-route property: `GET /x` registered with the
handler of the tests, then `GET /x`, `HEAD /x`, `POST /x` and `GET /y`. -/
theorem C4_witness :
    (MethodGet, ServeMux.Get) ∈ methodFuncs ∧ literalPath ("/" ++ "x") = true
    ∧ ∃ m : ServeMux, ServeMux.Get NewServeMux ("/" ++ "x") success = some m
      ∧ (m.ServeHTTP ⟨"GET", "/x", []⟩ freshWorld).resp = ⟨200, true, "success"⟩
      ∧ (m.ServeHTTP ⟨"HEAD", "/x", []⟩ freshWorld).resp = ⟨200, true, "success"⟩
      ∧ (m.ServeHTTP ⟨"POST", "/x", []⟩ freshWorld).resp.Code = 405
      ∧ (m.ServeHTTP ⟨"GET", "/y", []⟩ freshWorld).resp.Code = 404 := by
  have hmem : (MethodGet, ServeMux.Get) ∈ methodFuncs := by simp [methodFuncs]
  have hx : literalPath ("/" ++ "x") = true := by decide
  obtain ⟨m, h1, _, h200, hhead, h405, h404⟩ :=
    C4_single_route_200_405_404 (MethodGet, ServeMux.Get) hmem "x" success hx
  refine ⟨hmem, hx, m, h1, ?_, ?_, ?_, ?_⟩
  · rw [h200 ⟨"GET", "/x", []⟩ freshWorld rfl (by decide)]
    decide
  · rw [hhead ⟨"HEAD", "/x", []⟩ freshWorld rfl rfl (by decide)]
    decide
  · exact h405 ⟨"POST", "/x", []⟩ [] (by decide) (by decide) (by decide)
  · exact h404 ⟨"GET", "/y", []⟩ [] "y" (by decide) (by decide) (Or.inr (by decide))

/-- C4, the claim as stated fails: with `x = static/` and `y = static/app.js`
the route registered by `Get` at `/x` on a fresh router is a subtree pattern,
and the request `GET /y` is served by the handler with status 200, not 404;
with the wildcard route `/items/{id}` the request `GET /items/5` is served
with 200, not 404; a HEAD request to a route registered by `Get` is served by
the handler with 200, not answered with 405; and the request `GET //x` with
its unclean path is answered by a redirect (301), not by 404. -/
theorem C4_counterexample_subtree_pattern :
    (∃ m : ServeMux, ServeMux.Get NewServeMux ("/" ++ "static/") success = some m
      ∧ "static/app.js" ≠ "static/"
      ∧ (m.ServeHTTP ⟨"GET", "/" ++ "static/app.js", []⟩ freshWorld).resp
          = ⟨200, true, "success"⟩)
    ∧ (∃ m : ServeMux, ServeMux.Get NewServeMux ("/" ++ "items/{id}") success = some m
      ∧ "items/5" ≠ "items/{id}"
      ∧ (m.ServeHTTP ⟨"GET", "/" ++ "items/5", []⟩ freshWorld).resp = ⟨200, true, "success"⟩)
    ∧ (∃ m : ServeMux, ServeMux.Get NewServeMux ("/" ++ "x") success = some m
      ∧ "HEAD" ≠ "GET"
      ∧ (m.ServeHTTP ⟨"HEAD", "/" ++ "x", []⟩ freshWorld).resp = ⟨200, true, "success"⟩)
    ∧ (∃ m : ServeMux, ServeMux.Get NewServeMux ("/" ++ "x") success = some m
      ∧ "/x" ≠ "x"
      ∧ (m.ServeHTTP ⟨"GET", "/" ++ "/x", []⟩ freshWorld).resp.Code = 301) :=
  ⟨⟨_, MethodHandleFunc_fresh [] "GET" ("/" ++ "static/") success (by decide), by decide,
      by decide⟩,
    ⟨_, MethodHandleFunc_fresh [] "GET" ("/" ++ "items/{id}") success (by decide), by decide,
      by decide⟩,
    ⟨_, MethodHandleFunc_fresh [] "GET" ("/" ++ "x") success (by decide), by decide, by decide⟩,
    ⟨_, MethodHandleFunc_fresh [] "GET" ("/" ++ "x") success (by decide), by decide, by decide⟩⟩

theorem candidates_irrelevant (es : List (String × http.Handler)) (m : String) (path : List Char)
    (h : es.all (fun e =>
      match parsePattern e.1 with
      | some pat => !pat.matchesPath path
      | none => true) = true) :
    candidates es m path = [] := by
  induction es with
  | nil => rfl
  | cons e es ih =>
    simp only [List.all_cons, Bool.and_eq_true] at h
    have ih2 := ih h.2
    have h1 := h.1
    simp only [candidates, List.filterMap_cons] at ih2 ⊢
    cases hp : parsePattern e.1 with
    | none => simpa [hp] using ih2
    | some pat =>
      rw [hp] at h1
      have hf : pat.matchesPath path = false := by simpa using h1
      simpa [hp, hf] using ih2

theorem noRouteAt_path (es : List (String × http.Handler)) (path : List Char)
    (h : noRouteAt es path = true) :
    es.all (fun e =>
      match parsePattern e.1 with
      | some pat => !pat.matchesPath path
      | none => true) = true
    ∧ es.all (fun e =>
      match parsePattern e.1 with
      | some pat => !pat.matchesPath (path ++ [slash])
      | none => true) = true := by
  induction es with
  | nil => exact ⟨rfl, rfl⟩
  | cons e es ih =>
    simp only [noRouteAt, List.all_cons, Bool.and_eq_true] at h
    have ih2 := ih (by simpa [noRouteAt] using h.2)
    have h1 := h.1
    simp only [List.all_cons, Bool.and_eq_true]
    cases hp : parsePattern e.1 with
    | none => exact ⟨⟨rfl, ih2.1⟩, ⟨rfl, ih2.2⟩⟩
    | some pat =>
      rw [hp] at h1
      simp only [Bool.and_eq_true] at h1
      exact ⟨⟨h1.1, ih2.1⟩, ⟨h1.2, ih2.2⟩⟩

theorem candidates_append (es : List (String × http.Handler)) (e : String × http.Handler)
    (m : String) (path : List Char)
    (h : es.all (fun e =>
      match parsePattern e.1 with
      | some pat => !pat.matchesPath path
      | none => true) = true) :
    candidates (es ++ [e]) m path = candidates [e] m path := by
  have h0 := candidates_irrelevant es m path h
  simp only [candidates, List.filterMap_append] at h0 ⊢
  rw [h0]
  rfl

theorem matchingMethods_append (es : List (String × http.Handler)) (e : String × http.Handler)
    (path : List Char) (h : noRouteAt es path = true) :
    matchingMethods (es ++ [e]) path = matchingMethods [e] path := by
  have h0 : matchingMethods es path = [] := by
    induction es with
    | nil => rfl
    | cons e0 es ih =>
      simp only [noRouteAt, List.all_cons, Bool.and_eq_true] at h
      have ih2 := ih (by simpa [noRouteAt] using h.2)
      have h1 := h.1
      simp only [matchingMethods, List.filterMap_cons] at ih2 ⊢
      cases hp : parsePattern e0.1 with
      | none => simpa [hp] using ih2
      | some pat =>
        rw [hp] at h1
        simp only [Bool.and_eq_true, Bool.not_eq_true'] at h1
        simpa [hp, h1.1, h1.2] using ih2
  simp only [matchingMethods, List.filterMap_append] at h0 ⊢
  rw [h0]
  rfl

theorem findHandler_append (es : List (String × http.Handler)) (e : String × http.Handler)
    (method q : String) (hclean : method = MethodConnect ∨ cleanPath q.toList = q.toList)
    (hirr : noRouteAt es q.toList = true) :
    http.ServeMux.findHandler ⟨es ++ [e]⟩ method q = http.ServeMux.findHandler ⟨[e]⟩ method q := by
  have hraw : (if method = MethodConnect then q.toList else cleanPath q.toList) = q.toList := by
    rcases hclean with h | h
    · rw [if_pos h]
    · split
      · rfl
      · exact h
  obtain ⟨h1, h2⟩ := noRouteAt_path es q.toList hirr
  have hm : ∀ m : String, matchMethodAndPath (es ++ [e]) m q.toList
      = matchMethodAndPath [e] m q.toList := by
    intro m
    unfold matchMethodAndPath
    simp only [candidates_append es e _ q.toList h1]
  have hm2 : ∀ m : String, matchMethodAndPath (es ++ [e]) m (q.toList ++ [slash])
      = matchMethodAndPath [e] m (q.toList ++ [slash]) := by
    intro m
    unfold matchMethodAndPath
    simp only [candidates_append es e _ (q.toList ++ [slash]) h2]
  unfold http.ServeMux.findHandler matchOrRedirect
  simp only [hraw, hm, hm2, matchingMethods_append es e q.toList hirr]

theorem withValue_value (r : Request) (k v : String) : (r.WithValue k v).Value k = some v := by
  simp [Request.WithValue, Request.Value]

/-- C9, as amended: a middleware that attaches `v` under `k` to the context of
the request and calls `next` with it makes `v` visible under `k` to the route
handler when the middleware before it call `next` only on requests with the
method and path they received and the middleware after it call `next` only on
the very request they received: the handler the delegate resolves for the
request runs on the request with the value attached.  This holds for a route
of any table, for a route registered on a fresh router at a plain literal path
by any of the nine method-named operations, and for one registered by
`HandleFunc` or `Handle` (the path then without a space or tab); the run of
`TestMiddleware` is the last line. -/
theorem C9_context_value_reaches_route_handler (k v : String) (h : http.Handler)
    (r : Request) (s : World) :
    (r.WithValue k v).Value k = some v
    ∧ (∀ (d : http.ServeMux) (pat : String), d.Handler r = (h, pat) →
        ServeMux.ServeHTTP ⟨d, [withValueMw k v]⟩ r s = h (r.WithValue k v) s
        ∧ ∀ outer inner : List middlewareFunc,
            (∀ mw ∈ outer, ForwardsTarget mw) → (∀ mw ∈ inner, ForwardsRequest mw) →
            ServeMux.ServeHTTP ⟨d, outer ++ withValueMw k v :: inner⟩ r s
              = onion outer (fun r2 s2 =>
                  onion inner (fun _ s3 => h (r2.WithValue k v) s3) (r2.WithValue k v) s2) r s)
    ∧ (∀ op ∈ methodFuncs, r.Method = op.1 → literalPath r.Path = true →
        ∃ m : ServeMux, op.2 NewServeMux r.Path h = some m
          ∧ (m.AddMiddleware (withValueMw k v)).ServeHTTP r s = h (r.WithValue k v) s)
    ∧ (literalPath r.Path = true → noBlank r.Path = true →
        ∃ m : ServeMux, NewServeMux.HandleFunc r.Path h = some m
          ∧ NewServeMux.Handle r.Path h = some m
          ∧ (m.AddMiddleware (withValueMw k v)).ServeHTTP r s = h (r.WithValue k v) s)
    ∧ (∃ m : ServeMux, NewServeMux.HandleFunc "/middleware" (observe "TESTCTXKEY") = some m
        ∧ ((m.AddMiddleware (withValueMw "TESTCTXKEY" "TESTCTXKEY")).ServeHTTP
            ⟨"GET", "/middleware", []⟩ freshWorld).resp.Body = "TESTCTXKEY") := by
  refine ⟨withValue_value r k v, ?_, ?_, ?_, ?_⟩
  · intro d pat hd
    constructor
    · rw [withValue_serve, hd]
    · intro outer inner hout hin
      rw [ServeHTTP_eq_onion]
      simp only [onion_append, onion]
      apply onion_congr_target outer hout _ _ r _ r s rfl rfl
      intro r2 s2 hm hp
      show onion inner d.ServeHTTP (r2.WithValue k v) s2 = _
      apply onion_congr_request inner hin
      intro s3
      show (d.Handler (r2.WithValue k v)).1 (r2.WithValue k v) s3 = _
      rw [Handler_target d r (r2.WithValue k v) hm hp, hd]
  · intro op hop hmeth hlit
    obtain ⟨hM, hreg⟩ := methodFuncs_spec op hop
    obtain ⟨hb, hv, _⟩ := nine_facts op.1 hM
    have hparse := parsePattern_method op.1 r.Path hb hv hlit
    have hfresh := MethodHandleFunc_fresh [] op.1 r.Path h (by rw [hparse]; rfl)
    refine ⟨_, (hreg _ _ _).trans hfresh, ?_⟩
    show ServeMux.ServeHTTP ⟨⟨[(op.1 ++ " " ++ r.Path, h)]⟩, [withValueMw k v]⟩ r s = _
    rw [withValue_serve]
    show (http.ServeMux.findHandler ⟨[(op.1 ++ " " ++ r.Path, h)]⟩ r.Method r.Path).1 _ _ = _
    rw [method_route_resolve op.1 r.Path h hM hlit r.Method r.Path (literal_head _ hlit)
      (literal_clean _ hlit _), if_pos rfl, if_pos (Or.inl hmeth.symm)]
  · intro hlit hnb
    have hparse := parsePattern_plain r.Path hlit hnb
    obtain ⟨hf1, hf2⟩ := HandleFunc_fresh [] r.Path h (by rw [hparse]; rfl)
    refine ⟨_, hf1, hf2, ?_⟩
    show ServeMux.ServeHTTP ⟨⟨[(r.Path, h)]⟩, [withValueMw k v]⟩ r s = _
    rw [withValue_serve]
    show (http.ServeMux.findHandler ⟨[(r.Path, h)]⟩ r.Method r.Path).1 _ _ = _
    rw [plain_route_resolve r.Path h hlit hnb r.Method r.Path (literal_head _ hlit)
      (literal_clean _ hlit _), if_pos rfl]
  · exact ⟨_, (HandleFunc_fresh [] "/middleware" (observe "TESTCTXKEY") (by decide)).1, by decide⟩

/-- A concrete run: a route registered by `Post`, the context middleware added
afterwards, and the route handler writes the value it finds. -/
theorem C9_witness :
    (MethodPost, ServeMux.Post) ∈ methodFuncs ∧ literalPath "/middleware" = true
    ∧ ∃ m : ServeMux, ServeMux.Post NewServeMux "/middleware" (observe "key") = some m
      ∧ (m.AddMiddleware (withValueMw "key" "val")).ServeHTTP ⟨"POST", "/middleware", []⟩ freshWorld
          = ⟨⟨200, true, "val"⟩, [Event.handled "route"]⟩ := by
  have hmem : (MethodPost, ServeMux.Post) ∈ methodFuncs := by simp [methodFuncs]
  have hlit : literalPath "/middleware" = true := by decide
  obtain ⟨m, h1, h2⟩ := (C9_context_value_reaches_route_handler "key" "val" (observe "key")
    ⟨"POST", "/middleware", []⟩ freshWorld).2.2.1 (MethodPost, ServeMux.Post) hmem rfl hlit
  exact ⟨hmem, hlit, m, h1, h2.trans (by decide)⟩

/-- C9, the claim as stated fails: of two registered middleware that attach a
value under the same key before they call `next`, the route handler observes
the value of the later one, not `first`; and behind a registered middleware
that does not call `next` the route handler observes nothing at all. -/
theorem C9_counterexample_later_middleware_overrides :
    ∃ m : ServeMux, NewServeMux.HandleFunc "/middleware" (observe "k") = some m
      ∧ "second" ≠ "first"
      ∧ (((m.AddMiddleware (withValueMw "k" "first")).AddMiddleware
            (withValueMw "k" "second")).ServeHTTP ⟨"GET", "/middleware", []⟩ freshWorld)
          = ⟨⟨200, true, "second"⟩, [Event.handled "route"]⟩
      ∧ (((m.AddMiddleware (withValueMw "k" "first")).AddMiddleware
            (rejectMw 401 "denied")).ServeHTTP ⟨"GET", "/middleware", []⟩ freshWorld)
          = ⟨⟨401, true, "denied"⟩, []⟩ :=
  ⟨_, (HandleFunc_fresh [] "/middleware" (observe "k") (by decide)).1, by decide, by decide,
    by decide⟩

theorem Handle_some (m m2 : ServeMux) (pattern : String) (h : http.Handler)
    (hreg : (m.stdMux.Handle pattern h).map (fun d => (⟨d, m.middlewares⟩ : ServeMux)) = some m2) :
    m2 = ⟨⟨m.stdMux.entries ++ [(pattern, h)]⟩, m.middlewares⟩ := by
  simp only [http.ServeMux.Handle] at hreg
  split at hreg
  · simp at hreg
  · split at hreg
    · simp at hreg
    · simp only [Option.map_some', Option.some.injEq] at hreg
      exact hreg.symm

theorem MethodHandle_fresh (A : List middlewareFunc) (M p : String) (h : http.Handler)
    (hparse : (parsePattern (M ++ " " ++ p)).isSome = true) :
    ServeMux.MethodHandle ⟨http.NewServeMux, A⟩ M p h = some ⟨⟨[(M ++ " " ++ p, h)]⟩, A⟩ := by
  show (http.ServeMux.Handle ⟨[]⟩ (M ++ " " ++ p) h).map _ = _
  rw [Handle_fresh _ h hparse]
  rfl

theorem markers_serve (d : http.ServeMux) (ids : List Nat) (r : Request) (s : World) :
    ServeMux.ServeHTTP ⟨d, ids.map markerMw⟩ r s
      = (d.ServeHTTP r (s.recordAll (ids.map Event.entered))).recordAll
          (ids.reverse.map Event.exited) := by
  rw [ServeHTTP_eq_onion]
  exact onion_markerMw ids d.ServeHTTP r s

theorem delegate_serve (d : http.ServeMux) (r : Request) (s : World) :
    d.ServeHTTP r s = (d.findHandler r.Method r.Path).1 r s := rfl

/-- C10: an inner router (middleware `B`) registered by `MethodHandle` or
`Handle` as the handler of a pattern with a plain literal path (without a
space or tab) on an outer router with marker middleware `a0, ..., ak`, none of whose other routes
matches that path: for a request with that path (and, under `MethodHandle`,
that method) the outer delegate passes the request to the inner router's
`ServeHTTP`, after every outer entry marker and before every outer exit
marker; when the inner middleware are markers too, the entries are `a0..ak`,
then `b0..bj`, then the dispatch of the inner table; an inner route registered
by a method-named operation gives the response of its handler when the method
matches and status 405 on a fresh recorder when it does not; under
`MethodHandle` a request with another method is answered 405 by the outer
table; and on a fresh outer router both registrations go through. -/
theorem C10_nested_router_routes_by_inner_table (M p : String) (hM : M ∈ nineMethods)
    (hp : literalPath p = true) (hblank : noBlank p = true) (outer0 : ServeMux)
    (idsA : List Nat)
    (hA : outer0.middlewares = idsA.map markerMw)
    (hirr : noRouteAt outer0.stdMux.entries p.toList = true)
    (dIn : http.ServeMux) (B : List middlewareFunc) (r : Request) (s : World)
    (hpath : r.Path = p) :
    (∀ outer : ServeMux,
        outer0.MethodHandle M p (ServeMux.ServeHTTP ⟨dIn, B⟩) = some outer →
        (r.Method = M ∨ (M = MethodGet ∧ r.Method = MethodHead) →
            outer.stdMux.ServeHTTP r s = ServeMux.ServeHTTP ⟨dIn, B⟩ r s
            ∧ outer.ServeHTTP r s
                = (ServeMux.ServeHTTP ⟨dIn, B⟩ r (s.recordAll (idsA.map Event.entered))).recordAll
                    (idsA.reverse.map Event.exited)
            ∧ ∀ idsB : List Nat, B = idsB.map markerMw →
                outer.ServeHTTP r s
                  = (dIn.ServeHTTP r
                      (s.recordAll (idsA.map Event.entered ++ idsB.map Event.entered))).recordAll
                      (idsB.reverse.map Event.exited ++ idsA.reverse.map Event.exited))
        ∧ (r.Method ≠ M → ¬ (M = MethodGet ∧ r.Method = MethodHead) → s.resp = NewRecorder →
            (outer.ServeHTTP r s).resp.Code = StatusMethodNotAllowed))
    ∧ (∀ outer : ServeMux,
        outer0.Handle p (ServeMux.ServeHTTP ⟨dIn, B⟩) = some outer →
        outer.stdMux.ServeHTTP r s = ServeMux.ServeHTTP ⟨dIn, B⟩ r s
        ∧ outer.ServeHTTP r s
            = (ServeMux.ServeHTTP ⟨dIn, B⟩ r (s.recordAll (idsA.map Event.entered))).recordAll
                (idsA.reverse.map Event.exited)
        ∧ ∀ idsB : List Nat, B = idsB.map markerMw →
            outer.ServeHTTP r s
              = (dIn.ServeHTTP r
                  (s.recordAll (idsA.map Event.entered ++ idsB.map Event.entered))).recordAll
                  (idsB.reverse.map Event.exited ++ idsA.reverse.map Event.exited))
    ∧ (∀ op2 ∈ methodFuncs, ∀ (h : http.Handler) (idsB : List Nat),
        ∃ inner : ServeMux,
          op2.2 ⟨http.NewServeMux, idsB.map markerMw⟩ p h = some inner
          ∧ ∀ outer : ServeMux, outer0.Handle p inner.ServeHTTP = some outer →
            (r.Method = op2.1 ∨ (op2.1 = MethodGet ∧ r.Method = MethodHead) →
              outer.ServeHTTP r s
                = (h r (s.recordAll (idsA.map Event.entered ++ idsB.map Event.entered))).recordAll
                    (idsB.reverse.map Event.exited ++ idsA.reverse.map Event.exited))
            ∧ (r.Method ≠ op2.1 → ¬ (op2.1 = MethodGet ∧ r.Method = MethodHead) →
                s.resp = NewRecorder →
                (outer.ServeHTTP r s).resp.Code = StatusMethodNotAllowed
                ∧ (outer.ServeHTTP r s).trace
                    = s.trace ++ idsA.map Event.entered ++ idsB.map Event.entered
                        ++ idsB.reverse.map Event.exited ++ idsA.reverse.map Event.exited))
    ∧ (∃ outer : ServeMux,
        ServeMux.MethodHandle ⟨http.NewServeMux, idsA.map markerMw⟩ M p
          (ServeMux.ServeHTTP ⟨dIn, B⟩) = some outer)
    ∧ (∃ outer : ServeMux,
        ServeMux.Handle ⟨http.NewServeMux, idsA.map markerMw⟩ p
          (ServeMux.ServeHTTP ⟨dIn, B⟩) = some outer) := by
  obtain ⟨hb, hv, _⟩ := nine_facts M hM
  have hhead := literal_head p hp
  have hclean := literal_clean p hp r.Method
  have happ := fun e => findHandler_append outer0.stdMux.entries e r.Method p hclean hirr
  have hparseM := parsePattern_method M p hb hv hp
  have hparseP := parsePattern_plain p hp hblank
  have hinner : ∀ (idsB : List Nat) (s2 : World), B = idsB.map markerMw →
      (ServeMux.ServeHTTP ⟨dIn, B⟩ r (s2.recordAll (idsA.map Event.entered))).recordAll
          (idsA.reverse.map Event.exited)
        = (dIn.ServeHTTP r
            (s2.recordAll (idsA.map Event.entered ++ idsB.map Event.entered))).recordAll
            (idsB.reverse.map Event.exited ++ idsA.reverse.map Event.exited) := by
    intro idsB s2 hB
    rw [hB, markers_serve, recordAll_recordAll, recordAll_recordAll]
  have hplain : ∀ (H : http.Handler) (s2 : World),
      http.ServeMux.ServeHTTP ⟨outer0.stdMux.entries ++ [(p, H)]⟩ r s2 = H r s2 := by
    intro H s2
    rw [delegate_serve, hpath, happ, plain_route_resolve p H hp hblank r.Method p hhead hclean,
      if_pos rfl]
  refine ⟨?_, ?_, ?_, ⟨_, MethodHandle_fresh _ M p _ (by rw [hparseM]; rfl)⟩,
    ⟨_, (HandleFunc_fresh _ p _ (by rw [hparseP]; rfl)).2⟩⟩
  · intro outer hreg
    have hout := Handle_some outer0 outer (M ++ " " ++ p) _ hreg
    rw [hA] at hout
    subst hout
    have hres := method_route_resolve M p (ServeMux.ServeHTTP ⟨dIn, B⟩) hM hp r.Method p hhead hclean
    constructor
    · intro hmeth
      have hok : M = r.Method ∨ (r.Method = MethodHead ∧ M = MethodGet) := by
        rcases hmeth with h | ⟨h1, h2⟩
        · exact Or.inl h.symm
        · exact Or.inr ⟨h2, h1⟩
      have hpass : ∀ s2 : World,
          http.ServeMux.ServeHTTP
              ⟨outer0.stdMux.entries ++ [(M ++ " " ++ p, ServeMux.ServeHTTP ⟨dIn, B⟩)]⟩ r s2
            = ServeMux.ServeHTTP ⟨dIn, B⟩ r s2 := by
        intro s2
        rw [delegate_serve, hpath, happ, hres, if_pos rfl, if_pos hok]
      refine ⟨hpass s, ?_, ?_⟩
      · rw [markers_serve, hpass]
      · intro idsB hB
        rw [markers_serve, hpass]
        exact hinner idsB s hB
    · intro hm hnh hfresh
      have hno : ¬ (M = r.Method ∨ (r.Method = MethodHead ∧ M = MethodGet)) := by
        rintro (h | ⟨h1, h2⟩)
        · exact hm h.symm
        · exact hnh ⟨h2, h1⟩
      rw [markers_serve, recordAll_resp, delegate_serve, hpath, happ, hres, if_pos rfl,
        if_neg hno]
      exact notAllowed_code r _ hfresh
  · intro outer hreg
    have hout := Handle_some outer0 outer p _ hreg
    rw [hA] at hout
    subst hout
    refine ⟨hplain _ s, ?_, ?_⟩
    · rw [markers_serve, hplain]
    · intro idsB hB
      rw [markers_serve, hplain]
      exact hinner idsB s hB
  · intro op2 hop2 h idsB
    obtain ⟨hM2, hreg2⟩ := methodFuncs_spec op2 hop2
    obtain ⟨hb2, hv2, _⟩ := nine_facts op2.1 hM2
    have hparse2 := parsePattern_method op2.1 p hb2 hv2 hp
    have hres2 := method_route_resolve op2.1 p h hM2 hp r.Method p hhead hclean
    refine ⟨⟨⟨[(op2.1 ++ " " ++ p, h)]⟩, idsB.map markerMw⟩,
      (hreg2 _ _ _).trans (MethodHandleFunc_fresh _ op2.1 p h (by rw [hparse2]; rfl)), ?_⟩
    intro outer hreg
    have hout := Handle_some outer0 outer p _ hreg
    rw [hA] at hout
    subst hout
    have hrun : ∀ H : http.Handler,
        (http.ServeMux.findHandler ⟨[(op2.1 ++ " " ++ p, h)]⟩ r.Method p).1 = H →
        ServeMux.ServeHTTP
            ⟨⟨outer0.stdMux.entries
                ++ [(p, ServeMux.ServeHTTP ⟨⟨[(op2.1 ++ " " ++ p, h)]⟩, idsB.map markerMw⟩)]⟩,
              idsA.map markerMw⟩ r s
          = (H r (s.recordAll (idsA.map Event.entered ++ idsB.map Event.entered))).recordAll
              (idsB.reverse.map Event.exited ++ idsA.reverse.map Event.exited) := by
      intro H hH
      rw [markers_serve, hplain, markers_serve, delegate_serve, hpath, hH,
        recordAll_recordAll, recordAll_recordAll]
    constructor
    · intro hmeth
      have hok : op2.1 = r.Method ∨ (r.Method = MethodHead ∧ op2.1 = MethodGet) := by
        rcases hmeth with h1 | ⟨h1, h2⟩
        · exact Or.inl h1.symm
        · exact Or.inr ⟨h2, h1⟩
      exact hrun h (by rw [hres2, if_pos rfl, if_pos hok])
    · intro hm hnh hfresh
      have hno : ¬ (op2.1 = r.Method ∨ (r.Method = MethodHead ∧ op2.1 = MethodGet)) := by
        rintro (h1 | ⟨h1, h2⟩)
        · exact hm h1.symm
        · exact hnh ⟨h2, h1⟩
      have hrun2 := hrun methodNotAllowedHandler (by rw [hres2, if_pos rfl, if_neg hno])
      constructor
      · show (ServeMux.ServeHTTP _ r s).resp.Code = _
        rw [hrun2, recordAll_resp]
        exact notAllowed_code r _ hfresh
      · show (ServeMux.ServeHTTP _ r s).trace = _
        rw [hrun2]
        simp [World.recordAll, methodNotAllowedHandler, World.write, World.writeHeader]

/-- The runs of `TestMethodHandle` and `TestHandle`, built by the registration
operations, with marker middleware on both routers. -/
theorem C10_witness :
    "GET" ∈ nineMethods ∧ literalPath "/GET" = true ∧ noBlank "/GET" = true
    ∧ noRouteAt ((NewServeMux.AddMiddleware (markerMw 0)).AddMiddleware
        (markerMw 1)).stdMux.entries "/GET".toList = true
    ∧ (∃ inner outer : ServeMux,
        NewServeMux.HandleFunc "/" success = some inner
        ∧ ((NewServeMux.AddMiddleware (markerMw 0)).AddMiddleware (markerMw 1)).MethodHandle
            "GET" "/GET" (inner.AddMiddleware (markerMw 2)).ServeHTTP = some outer
        ∧ outer.ServeHTTP ⟨"GET", "/GET", []⟩ freshWorld
            = ⟨⟨200, true, "success"⟩,
                [Event.entered 0, Event.entered 1, Event.entered 2,
                 Event.exited 2, Event.exited 1, Event.exited 0]⟩
        ∧ outer.ServeHTTP ⟨"POST", "/GET", []⟩ freshWorld
            = ⟨⟨405, true, "Method Not Allowed\n"⟩,
                [Event.entered 0, Event.entered 1, Event.exited 1, Event.exited 0]⟩)
    ∧ (∃ inner outer : ServeMux,
        NewServeMux.MethodHandleFunc "GET" "/" success = some inner
        ∧ ((NewServeMux.AddMiddleware (markerMw 0)).AddMiddleware (markerMw 1)).Handle
            "/GET" (inner.AddMiddleware (markerMw 2)).ServeHTTP = some outer
        ∧ outer.ServeHTTP ⟨"GET", "/GET", []⟩ freshWorld
            = ⟨⟨200, true, "success"⟩,
                [Event.entered 0, Event.entered 1, Event.entered 2,
                 Event.exited 2, Event.exited 1, Event.exited 0]⟩
        ∧ outer.ServeHTTP ⟨"POST", "/GET", []⟩ freshWorld
            = ⟨⟨405, true, "Method Not Allowed\n"⟩,
                [Event.entered 0, Event.entered 1, Event.entered 2,
                 Event.exited 2, Event.exited 1, Event.exited 0]⟩)
    ∧ (∃ inner outer0 outer : ServeMux,
        NewServeMux.HandleFunc "/" success = some inner
        ∧ (NewServeMux.AddMiddleware (markerMw 0)).HandleFunc "/other" (say "other") = some outer0
        ∧ noRouteAt outer0.stdMux.entries "/GET".toList = true
        ∧ outer0.Handle "/GET" inner.ServeHTTP = some outer
        ∧ outer.ServeHTTP ⟨"POST", "/GET", []⟩ freshWorld
            = ⟨⟨200, true, "success"⟩, [Event.entered 0, Event.exited 0]⟩
        ∧ outer.ServeHTTP ⟨"POST", "/other", []⟩ freshWorld
            = ⟨⟨200, true, "other"⟩, [Event.entered 0, Event.exited 0]⟩) := by
  have hM : "GET" ∈ nineMethods := by decide
  have hp : literalPath "/GET" = true := by decide
  have hirr : noRouteAt ((NewServeMux.AddMiddleware (markerMw 0)).AddMiddleware
      (markerMw 1)).stdMux.entries "/GET".toList = true := rfl
  have hreg0 := MethodHandle_fresh [markerMw 0, markerMw 1] "GET" "/GET"
    (ServeMux.ServeHTTP ⟨⟨[("/", success)]⟩, [markerMw 2]⟩) (by decide)
  have hthm := (C10_nested_router_routes_by_inner_table "GET" "/GET" hM hp (by decide)
    ((NewServeMux.AddMiddleware (markerMw 0)).AddMiddleware (markerMw 1)) [0, 1] rfl hirr
    ⟨[("/", success)]⟩ [markerMw 2] ⟨"GET", "/GET", []⟩ freshWorld rfl).1 _ hreg0
  have hregB : ServeMux.Handle ⟨⟨[("/other", say "other")]⟩, [markerMw 0]⟩ "/GET"
      (ServeMux.ServeHTTP ⟨⟨[("/", success)]⟩, []⟩)
      = some ⟨⟨[("/other", say "other"),
          ("/GET", ServeMux.ServeHTTP ⟨⟨[("/", success)]⟩, []⟩)]⟩, [markerMw 0]⟩ := by
    have h1 : parsePattern "/GET" = some ⟨"", "", [Segment.lit "GET".toList]⟩ := by decide
    have h2 : parsePattern "/other" = some ⟨"", "", [Segment.lit "other".toList]⟩ := by decide
    simp [ServeMux.Handle, http.ServeMux.Handle, h1, h2]
    decide
  have hthmB := (C10_nested_router_routes_by_inner_table "GET" "/GET" hM hp (by decide)
    ⟨⟨[("/other", say "other")]⟩, [markerMw 0]⟩ [0] rfl (by decide)
    ⟨[("/", success)]⟩ [] ⟨"POST", "/GET", []⟩ freshWorld rfl).2.1 _ hregB
  refine ⟨hM, hp, by decide, hirr, ?_, ?_, ?_⟩
  · refine ⟨_, _, (HandleFunc_fresh [] "/" success (by decide)).1, hreg0, ?_, by decide⟩
    rw [(hthm.1 (Or.inl rfl)).2.2 [2] rfl]
    decide
  · refine ⟨_, _, MethodHandleFunc_fresh [] "GET" "/" success (by decide),
      (HandleFunc_fresh [markerMw 0, markerMw 1] "/GET"
        (ServeMux.ServeHTTP ⟨⟨[("GET" ++ " " ++ "/", success)]⟩, [markerMw 2]⟩) (by decide)).2,
      by decide, by decide⟩
  · refine ⟨_, _, _, (HandleFunc_fresh [] "/" success (by decide)).1,
      (HandleFunc_fresh [markerMw 0] "/other" (say "other") (by decide)).1, by decide, hregB,
      ?_, by decide⟩
    rw [hthmB.2.1]
    decide

end ittp
